import Mathlib

/-!
Verification of the search-service core of the repository
(`src/services/search-service/main.py`): the inverted index, the
autocomplete trie, the recommendation engine, the existence filter and the
search endpoint, shallowly embedded in Lean.

Modelling conventions:
* A Python `dict` is an insertion-ordered association list with unique keys
  (`dlookup`, `dset`, `derase`).  `dset` updates the first matching entry in
  place and appends a fresh key at the end, exactly as a Python dict does.
* A Python `set` of strings is a `Finset String`; iteration over a set
  (whose order CPython leaves unspecified) is modelled by `Finset.toList`
  or `List.dedup` (any fixed order is a faithful model of one run).
* Python's stable `list.sort(key=..., reverse=True)` is modelled by
  `List.insertionSort` with the reflexive "greater-or-equal key" relation,
  which is a stable sort; a stable sort by a given key order is unique, so
  this is extensionally the sort CPython performs.
* `str.lower`, `str.strip` and the tokenizer regex are modelled at ASCII
  fidelity (`Char.toLower`, `Char.isWhitespace`, `Char.isAlpha`); the
  claims never involve non-ASCII input.
* Machine floats appear only in the TF-IDF scores of
  `InvertedIndex.search`.  The claims checked here are independent of the
  float values, so that ranking pass is abstracted by an arbitrary
  permutation (see `search` below); the re-rank scores of
  `calculate_relevance_score` are exact dyadic rationals and are modelled
  exactly in `ℚ`.
-/

/-! ## Insertion-ordered dictionaries (Python `dict`) -/

section Dict

set_option linter.unusedSectionVars false

variable {κ : Type} [DecidableEq κ] {α : Type}

/-- `d[k]` lookup: first entry with key `k` (entries are unique-keyed). -/
def dlookup : List (κ × α) → κ → Option α
  | [], _ => none
  | p :: rest, k => if p.1 = k then some p.2 else dlookup rest k

/-- `d[k] = v`: update the entry in place if the key exists, else append. -/
def dset : List (κ × α) → κ → α → List (κ × α)
  | [], k, v => [(k, v)]
  | p :: rest, k, v => if p.1 = k then (k, v) :: rest else p :: dset rest k v

/-- `del d[k]`: drop the first entry with key `k` (a no-op if absent). -/
def derase : List (κ × α) → κ → List (κ × α)
  | [], _ => []
  | p :: rest, k => if p.1 = k then rest else p :: derase rest k

/-- The keys of the dictionary, in insertion order. -/
def dkeys (m : List (κ × α)) : List κ := m.map Prod.fst

/-- `k in d`. -/
def dmem (m : List (κ × α)) (k : κ) : Bool := (dlookup m k).isSome

@[simp] theorem dlookup_nil (k : κ) : dlookup ([] : List (κ × α)) k = none := rfl

@[simp] theorem dlookup_cons (a : κ) (b : α) (rest : List (κ × α)) (k : κ) :
    dlookup ((a, b) :: rest) k = if a = k then some b else dlookup rest k := rfl

@[simp] theorem dset_nil (k : κ) (v : α) : dset ([] : List (κ × α)) k v = [(k, v)] := rfl

@[simp] theorem dset_cons (a : κ) (b : α) (rest : List (κ × α)) (k : κ) (v : α) :
    dset ((a, b) :: rest) k v =
      if a = k then (k, v) :: rest else (a, b) :: dset rest k v := rfl

@[simp] theorem derase_nil (k : κ) : derase ([] : List (κ × α)) k = [] := rfl

@[simp] theorem derase_cons (a : κ) (b : α) (rest : List (κ × α)) (k : κ) :
    derase ((a, b) :: rest) k = if a = k then rest else (a, b) :: derase rest k := rfl

@[simp] theorem dkeys_nil : dkeys ([] : List (κ × α)) = [] := rfl

@[simp] theorem dkeys_cons (a : κ) (b : α) (rest : List (κ × α)) :
    dkeys ((a, b) :: rest) = a :: dkeys rest := rfl

theorem dlookup_dset (m : List (κ × α)) (k : κ) (v : α) (k' : κ) :
    dlookup (dset m k v) k' = if k = k' then some v else dlookup m k' := by
  induction m with
  | nil => by_cases h : k = k' <;> simp [h]
  | cons p rest ih =>
    obtain ⟨a, b⟩ := p
    by_cases hp : a = k
    · subst hp
      by_cases h : a = k'
      · simp [h]
      · simp [h]
    · by_cases h : k = k'
      · subst h
        simp [hp, ih]
      · by_cases hq : a = k'
        · subst hq; simp [hp, h]
        · simp [hp, hq, h, ih]

theorem dlookup_dset_self (m : List (κ × α)) (k : κ) (v : α) :
    dlookup (dset m k v) k = some v := by simp [dlookup_dset]

theorem dlookup_dset_ne (m : List (κ × α)) (k : κ) (v : α) (k' : κ) (h : k ≠ k') :
    dlookup (dset m k v) k' = dlookup m k' := by simp [dlookup_dset, h]

theorem dset_eq_self (m : List (κ × α)) (k : κ) (v : α)
    (h : dlookup m k = some v) : dset m k v = m := by
  induction m with
  | nil => simp at h
  | cons p rest ih =>
    obtain ⟨a, b⟩ := p
    by_cases hp : a = k
    · subst hp
      simp at h
      simp [h]
    · simp [hp] at h
      simp [hp, ih h]

theorem dkeys_dset_mem (m : List (κ × α)) (k : κ) (v : α) (h : k ∈ dkeys m) :
    dkeys (dset m k v) = dkeys m := by
  induction m with
  | nil => simp at h
  | cons p rest ih =>
    obtain ⟨a, b⟩ := p
    by_cases hp : a = k
    · subst hp; simp
    · have h' : k ∈ dkeys rest := by
        rcases List.mem_cons.mp (by simpa using h) with h1 | h1
        · exact absurd h1.symm hp
        · exact h1
      simp [hp, ih h']

theorem dkeys_dset_not_mem (m : List (κ × α)) (k : κ) (v : α) (h : k ∉ dkeys m) :
    dkeys (dset m k v) = dkeys m ++ [k] := by
  induction m with
  | nil => simp
  | cons p rest ih =>
    obtain ⟨a, b⟩ := p
    have hp : a ≠ k := by
      intro hk; exact h (by simp [hk])
    have h' : k ∉ dkeys rest := fun hk => h (by simp [hk])
    simp [hp, ih h']

theorem dlookup_derase_ne (m : List (κ × α)) (k k' : κ) (h : k ≠ k') :
    dlookup (derase m k) k' = dlookup m k' := by
  induction m with
  | nil => simp
  | cons p rest ih =>
    obtain ⟨a, b⟩ := p
    by_cases hp : a = k
    · subst hp
      have : a ≠ k' := h
      simp [this]
    · by_cases hq : a = k'
      · subst hq; simp [hp]
      · simp [hp, hq, ih]

theorem dlookup_eq_none_of_not_mem (m : List (κ × α)) (k : κ) (h : k ∉ dkeys m) :
    dlookup m k = none := by
  induction m with
  | nil => simp
  | cons p rest ih =>
    obtain ⟨a, b⟩ := p
    have hp : a ≠ k := fun hk => h (by simp [hk])
    have h' : k ∉ dkeys rest := fun hk => h (by simp [hk])
    simp [hp, ih h']

theorem mem_dkeys_of_dlookup (m : List (κ × α)) (k : κ) (v : α)
    (h : dlookup m k = some v) : k ∈ dkeys m := by
  by_contra hk
  rw [dlookup_eq_none_of_not_mem m k hk] at h
  exact Option.noConfusion h

theorem dlookup_isSome_iff_mem (m : List (κ × α)) (k : κ) :
    (dlookup m k).isSome = true ↔ k ∈ dkeys m := by
  induction m with
  | nil => simp
  | cons p rest ih =>
    obtain ⟨a, b⟩ := p
    by_cases hp : a = k
    · subst hp; simp
    · have : ¬ k = a := fun hk => hp hk.symm
      simp [hp, this, ih]

theorem derase_of_not_mem (m : List (κ × α)) (k : κ) (h : k ∉ dkeys m) :
    derase m k = m := by
  induction m with
  | nil => simp
  | cons p rest ih =>
    obtain ⟨a, b⟩ := p
    have hp : a ≠ k := fun hk => h (by simp [hk])
    have h' : k ∉ dkeys rest := fun hk => h (by simp [hk])
    simp [hp, ih h']

theorem dkeys_derase (m : List (κ × α)) (k : κ) :
    dkeys (derase m k) = (dkeys m).erase k := by
  induction m with
  | nil => simp
  | cons p rest ih =>
    obtain ⟨a, b⟩ := p
    by_cases hp : a = k
    · subst hp; simp [List.erase_cons_head]
    · have : ¬ a == k := by simp [hp]
      simp [hp, List.erase_cons, this, ih]

theorem dlookup_derase_self (m : List (κ × α)) (k : κ)
    (hnd : (dkeys m).Nodup) : dlookup (derase m k) k = none := by
  induction m with
  | nil => simp
  | cons p rest ih =>
    obtain ⟨a, b⟩ := p
    simp only [dkeys_cons, List.nodup_cons] at hnd
    by_cases hp : a = k
    · subst hp
      simp [dlookup_eq_none_of_not_mem rest a hnd.1]
    · simp [hp, ih hnd.2]

/-- Two unique-keyed dictionaries with the same key list and the same
lookups are the same list. -/
theorem dict_ext (m₁ m₂ : List (κ × α)) (hk : dkeys m₁ = dkeys m₂)
    (hnd : (dkeys m₁).Nodup)
    (hl : ∀ k, dlookup m₁ k = dlookup m₂ k) : m₁ = m₂ := by
  induction m₁ generalizing m₂ with
  | nil =>
    cases m₂ with
    | nil => rfl
    | cons q rest => obtain ⟨a, b⟩ := q; simp at hk
  | cons p rest ih =>
    obtain ⟨a, b⟩ := p
    cases m₂ with
    | nil => simp [dkeys] at hk
    | cons q rest₂ =>
      obtain ⟨a₂, b₂⟩ := q
      simp only [dkeys_cons, List.cons.injEq] at hk
      obtain ⟨hk1, hk2⟩ := hk
      subst hk1
      simp only [dkeys_cons, List.nodup_cons] at hnd
      have hval : b = b₂ := by
        have := hl a
        simpa using this
      subst hval
      have hl' : ∀ k, dlookup rest k = dlookup rest₂ k := by
        intro k
        by_cases hkk : k = a
        · subst hkk
          rw [dlookup_eq_none_of_not_mem rest k hnd.1,
            dlookup_eq_none_of_not_mem rest₂ k (hk2 ▸ hnd.1)]
        · have := hl k
          have h1 : a ≠ k := fun h => hkk h.symm
          simpa [h1] using this
      rw [ih rest₂ hk2 hnd.2 hl']

end Dict

/-! ## Tokenizer (`InvertedIndex.tokenize`) -/

/-- ASCII model of `str.lower`. -/
def lowerStr (s : String) : String := String.mk (s.data.map Char.toLower)

/-- A regex word character (`\w` at ASCII fidelity): letter, digit or underscore. -/
def isWordChar (c : Char) : Bool := c.isAlpha || c.isDigit || c = '_'

/-- The maximal runs of word characters of a string, i.e. the substrings
delimited by the `\b` anchors of the tokenizer regex. -/
def splitRuns (cs : List Char) : List (List Char) :=
  let st := cs.foldl
    (fun (st : List (List Char) × List Char) c =>
      if isWordChar c then (st.1, st.2 ++ [c])
      else if st.2.isEmpty then (st.1, []) else (st.1 ++ [st.2], []))
    ([], [])
  if st.2.isEmpty then st.1 else st.1 ++ [st.2]

/-- Whether a word-character run matches `[a-zA-Z][a-zA-Z0-9]*` in full.
Since `\b` holds exactly at the ends of maximal word-character runs, a
match of the source regex is exactly a full run of this shape. -/
def isTokenRun : List Char → Bool
  | [] => false
  | c :: rest => c.isAlpha && rest.all (fun d => d.isAlpha || d.isDigit)

/-- `InvertedIndex.tokenize`: lowercase the text, then
`re.findall(r'\b[a-zA-Z][a-zA-Z0-9]*\b', ...)`. -/
def tokenize (text : String) : List String :=
  ((splitRuns (text.data.map Char.toLower)).filter isTokenRun).map String.mk

/-! ## InvertedIndex state and mutators -/

/-- The mutable state of the `InvertedIndex` class: `index` (token →
posting set, a `defaultdict(set)`), `doc_freq` (token → document
frequency, a `defaultdict(int)`, hence `Int`-valued), `total_docs`, and
`doc_lengths` (doc id → token count). -/
@[ext]
structure InvertedIndex where
  index : List (String × Finset String)
  doc_freq : List (String × Int)
  total_docs : Nat
  doc_lengths : List (String × Nat)
deriving DecidableEq

/-- `InvertedIndex.__init__`. -/
def InvertedIndex.empty : InvertedIndex :=
  { index := [], doc_freq := [], total_docs := 0, doc_lengths := [] }

/-- The entries of `self.index` whose posting set holds `doc_id`; the loop
body of `remove_document` touches exactly these. -/
def removeTouched (s : InvertedIndex) (doc_id : String) :
    List (String × Finset String) :=
  s.index.filter (fun p => decide (doc_id ∈ p.2))

/-- `doc_freq` after the loop of `remove_document`: one decrement per
touched token (`defaultdict(int)`: a missing key reads as 0). -/
def removeDf1 (s : InvertedIndex) (doc_id : String) : List (String × Int) :=
  (removeTouched s doc_id).foldl
    (fun df p => dset df p.1 ((dlookup df p.1).getD 0 - 1)) s.doc_freq

/-- `index` after the loop of `remove_document`: `doc_id` discarded from
every posting set (in place, so entry order is unchanged). -/
def removeIdx1 (s : InvertedIndex) (doc_id : String) :
    List (String × Finset String) :=
  s.index.map (fun p => (p.1, p.2.erase doc_id))

/-- `tokens_to_remove`: the tokens whose posting set became empty. -/
def removeKeys (s : InvertedIndex) (doc_id : String) : List String :=
  (s.index.filter
    (fun p => decide (doc_id ∈ p.2) && decide (p.2.erase doc_id = ∅))).map Prod.fst

/-- `InvertedIndex.remove_document`.  The source iterates over
`self.index.items()`, discarding `doc_id` from each posting that holds it
and decrementing `doc_freq`, then deletes the tokens whose postings became
empty from both dicts, deletes `doc_lengths[doc_id]` and recomputes
`total_docs`. -/
def remove_document (s : InvertedIndex) (doc_id : String) : InvertedIndex :=
  if dmem s.doc_lengths doc_id then
    { index := (removeKeys s doc_id).foldl (fun m t => derase m t) (removeIdx1 s doc_id),
      doc_freq := (removeKeys s doc_id).foldl (fun m t => derase m t) (removeDf1 s doc_id),
      doc_lengths := derase s.doc_lengths doc_id,
      total_docs := (derase s.doc_lengths doc_id).length }
  else s

/-- One iteration of the token loop of `add_document`: `self.index[token]`
is a `defaultdict(set)` access (absent key reads as the empty set; the
entry it would create is always populated with `doc_id` right away, so
reading absent keys as `∅` is extensionally faithful). -/
def addToken (doc_id : String)
    (acc : List (String × Finset String) × List (String × Int)) (t : String) :
    List (String × Finset String) × List (String × Int) :=
  let posting := (dlookup acc.1 t).getD ∅
  if doc_id ∈ posting then acc
  else (dset acc.1 t (insert doc_id posting),
        dset acc.2 t ((dlookup acc.2 t).getD 0 + 1))

/-- The token multiset of `add_document`: tokens of the text plus one
synthetic `category:<cat.lower()>` token per category. -/
def addTokensList (text : String) (categories : List String) : List String :=
  tokenize text ++ categories.map (fun c => "category:" ++ lowerStr c)

/-- The replace-safe prelude of `add_document`: remove the document first
when its id is already present. -/
def addBase (s : InvertedIndex) (doc_id : String) : InvertedIndex :=
  if dmem s.doc_lengths doc_id then remove_document s doc_id else s

/-- `InvertedIndex.add_document`: replace-safe removal, then
`doc_lengths[doc_id] = len(tokens)`, then one `addToken` iteration per
distinct token, then `total_docs = len(doc_lengths)`.
`unique_tokens = set(tokens)` is modelled by `List.dedup` (CPython set
iteration order is unspecified; any enumeration of the distinct tokens is
a faithful model). -/
def add_document (s : InvertedIndex) (doc_id text : String)
    (categories : List String) : InvertedIndex :=
  { index := ((addTokensList text categories).dedup.foldl (addToken doc_id)
      ((addBase s doc_id).index, (addBase s doc_id).doc_freq)).1,
    doc_freq := ((addTokensList text categories).dedup.foldl (addToken doc_id)
      ((addBase s doc_id).index, (addBase s doc_id).doc_freq)).2,
    doc_lengths := dset (addBase s doc_id).doc_lengths doc_id
      (addTokensList text categories).length,
    total_docs := (dset (addBase s doc_id).doc_lengths doc_id
      (addTokensList text categories).length).length }

/-- The states of the inverted index reachable by any sequence of
`add_document` and `remove_document` calls from the freshly constructed
object. -/
inductive Reachable : InvertedIndex → Prop
  | init : Reachable InvertedIndex.empty
  | add (s : InvertedIndex) (doc_id text : String) (categories : List String) :
      Reachable s → Reachable (add_document s doc_id text categories)
  | remove (s : InvertedIndex) (doc_id : String) :
      Reachable s → Reachable (remove_document s doc_id)

/-! ## Auxiliary dictionary lemmas for the index proofs -/

section DictAux

set_option linter.unusedSectionVars false

variable {κ : Type} [DecidableEq κ] {α β : Type}

theorem mem_of_dlookup {m : List (κ × α)} {k : κ} {v : α}
    (h : dlookup m k = some v) : (k, v) ∈ m := by
  induction m with
  | nil => simp at h
  | cons p rest ih =>
    obtain ⟨a, b⟩ := p
    by_cases hp : a = k
    · subst hp
      simp at h
      simp [h]
    · simp [hp] at h
      simp [ih h]

theorem dlookup_of_mem {m : List (κ × α)} {k : κ} {v : α}
    (hnd : (dkeys m).Nodup) (h : (k, v) ∈ m) : dlookup m k = some v := by
  induction m with
  | nil => simp at h
  | cons p rest ih =>
    obtain ⟨a, b⟩ := p
    simp only [dkeys_cons, List.nodup_cons] at hnd
    rcases List.mem_cons.mp h with h1 | h1
    · injection h1 with h1a h1b
      subst h1a; subst h1b
      simp
    · have : a ≠ k := by
        intro hk
        subst hk
        exact hnd.1 (List.mem_map.mpr ⟨(a, v), h1, rfl⟩)
      simp [this, ih hnd.2 h1]

theorem mem_dkeys_iff_lookup (m : List (κ × α)) (k : κ) :
    k ∈ dkeys m ↔ ∃ v, dlookup m k = some v := by
  rw [← dlookup_isSome_iff_mem]
  exact ⟨fun h => Option.isSome_iff_exists.mp h, fun ⟨v, hv⟩ => by simp [hv]⟩

theorem mem_dkeys_filter (m : List (κ × α)) (f : κ × α → Bool) (k : κ)
    (hnd : (dkeys m).Nodup) :
    k ∈ dkeys (m.filter f) ↔ ∃ v, dlookup m k = some v ∧ f (k, v) := by
  constructor
  · intro h
    rcases List.mem_map.mp h with ⟨p, hp, hpk⟩
    rcases List.mem_filter.mp hp with ⟨hpm, hpf⟩
    obtain ⟨a, b⟩ := p
    cases hpk
    exact ⟨b, dlookup_of_mem hnd hpm, hpf⟩
  · rintro ⟨v, hv, hf⟩
    exact List.mem_map.mpr ⟨(k, v), List.mem_filter.mpr ⟨mem_of_dlookup hv, hf⟩, rfl⟩

theorem dkeys_filter_nodup (m : List (κ × α)) (f : κ × α → Bool)
    (hnd : (dkeys m).Nodup) : (dkeys (m.filter f)).Nodup :=
  hnd.sublist ((List.filter_sublist m).map Prod.fst)

theorem dlookup_map_snd (m : List (κ × α)) (g : κ → α → β) (k : κ) :
    dlookup (m.map (fun p => (p.1, g p.1 p.2))) k = (dlookup m k).map (g k) := by
  induction m with
  | nil => simp
  | cons p rest ih =>
    obtain ⟨a, b⟩ := p
    by_cases hp : a = k
    · subst hp; simp
    · simp [hp, ih]

theorem dkeys_map_snd (m : List (κ × α)) (g : κ → α → β) :
    dkeys (m.map (fun p => (p.1, g p.1 p.2))) = dkeys m := by
  induction m with
  | nil => simp
  | cons p rest ih => obtain ⟨a, b⟩ := p; simp [ih]

theorem dlookup_foldl_derase (ks : List κ) (m : List (κ × α)) (k : κ)
    (hnd : (dkeys m).Nodup) :
    dlookup (ks.foldl (fun m t => derase m t) m) k =
      if k ∈ ks then none else dlookup m k := by
  induction ks generalizing m with
  | nil => simp
  | cons k₀ rest ih =>
    have hnd' : (dkeys (derase m k₀)).Nodup := by
      rw [dkeys_derase]; exact hnd.erase k₀
    by_cases hk : k ∈ rest
    · simp [List.foldl_cons, ih (derase m k₀) hnd', hk]
    · by_cases hk0 : k = k₀
      · subst hk0
        simp [List.foldl_cons, ih (derase m k) hnd', hk,
          dlookup_derase_self m k hnd]
      · have : ¬ k ∈ (k₀ :: rest) := by simp [hk, hk0]
        simp [List.foldl_cons, ih (derase m k₀) hnd', hk, this,
          dlookup_derase_ne m k₀ k (fun h => hk0 h.symm)]

theorem dkeys_foldl_derase (ks : List κ) (m : List (κ × α)) :
    dkeys (ks.foldl (fun m t => derase m t) m) =
      ks.foldl (fun l t => l.erase t) (dkeys m) := by
  induction ks generalizing m with
  | nil => simp
  | cons k₀ rest ih => simp [List.foldl_cons, ih, dkeys_derase]

theorem nodup_foldl_erase (ks : List κ) (l : List κ) (hnd : l.Nodup) :
    (ks.foldl (fun l t => l.erase t) l).Nodup := by
  induction ks generalizing l with
  | nil => exact hnd
  | cons k₀ rest ih => exact ih (l.erase k₀) (hnd.erase k₀)

theorem mem_foldl_erase (ks : List κ) (l : List κ) (hnd : l.Nodup) (k : κ) :
    k ∈ ks.foldl (fun l t => l.erase t) l ↔ k ∈ l ∧ k ∉ ks := by
  induction ks generalizing l with
  | nil => simp
  | cons k₀ rest ih =>
    simp only [List.foldl_cons]
    rw [ih (l.erase k₀) (hnd.erase k₀)]
    rw [List.Nodup.mem_erase_iff hnd]
    simp only [List.mem_cons]
    tauto

end DictAux

section DictDec

set_option linter.unusedSectionVars false

variable {κ : Type} [DecidableEq κ] {β : Type}

theorem dlookup_foldl_dec (ps : List (κ × β)) (df : List (κ × Int)) (k : κ)
    (hnd : (dkeys ps).Nodup) :
    dlookup (ps.foldl (fun df p => dset df p.1 ((dlookup df p.1).getD 0 - 1)) df) k =
      if k ∈ dkeys ps then some ((dlookup df k).getD 0 - 1) else dlookup df k := by
  induction ps generalizing df with
  | nil => simp
  | cons p rest ih =>
    obtain ⟨a, b⟩ := p
    simp only [dkeys_cons, List.nodup_cons] at hnd
    simp only [List.foldl_cons]
    rw [ih _ hnd.2]
    by_cases hk : k ∈ dkeys rest
    · have : a ≠ k := fun h => hnd.1 (h ▸ hk)
      simp [hk, dlookup_dset_ne _ _ _ _ this]
    · by_cases hak : a = k
      · subst hak
        simp [hk, dlookup_dset_self]
      · have hka : ¬ k = a := fun h => hak h.symm
        simp [hk, hka, dlookup_dset_ne _ _ _ _ hak]

theorem dkeys_foldl_dec (ps : List (κ × β)) (df : List (κ × Int))
    (h : ∀ p ∈ ps, p.1 ∈ dkeys df) :
    dkeys (ps.foldl (fun df p => dset df p.1 ((dlookup df p.1).getD 0 - 1)) df) =
      dkeys df := by
  induction ps generalizing df with
  | nil => simp
  | cons p rest ih =>
    simp only [List.foldl_cons]
    have hk := dkeys_dset_mem df p.1 ((dlookup df p.1).getD 0 - 1) (h p (by simp))
    rw [ih _ (fun q hq => hk ▸ h q (by simp [hq])), hk]

end DictDec

/-! ## The index invariant (claim C1) -/

/-- The data-structure invariant of the inverted index: unique dict keys,
`doc_freq` keyed exactly like `index`, every live posting set non-empty
with `doc_freq` equal to its cardinality, every posted document tracked in
`doc_lengths`, and `total_docs` equal to the number of indexed documents. -/
structure IndexInv (s : InvertedIndex) : Prop where
  nodupIdx : (dkeys s.index).Nodup
  nodupDl : (dkeys s.doc_lengths).Nodup
  keysEq : dkeys s.doc_freq = dkeys s.index
  postings : ∀ t p, dlookup s.index t = some p →
    p ≠ ∅ ∧ dlookup s.doc_freq t = some (p.card : Int)
  tracked : ∀ t p, dlookup s.index t = some p → ∀ x ∈ p, x ∈ dkeys s.doc_lengths
  totalEq : s.total_docs = s.doc_lengths.length

theorem inv_empty : IndexInv InvertedIndex.empty := by
  constructor <;> simp [InvertedIndex.empty]

theorem mem_removeKeys (s : InvertedIndex) (d t : String)
    (hnd : (dkeys s.index).Nodup) :
    t ∈ removeKeys s d ↔
      ∃ P, dlookup s.index t = some P ∧ d ∈ P ∧ P.erase d = ∅ := by
  unfold removeKeys
  rw [show (s.index.filter (fun p => decide (d ∈ p.2) && decide (p.2.erase d = ∅))).map
        Prod.fst =
      dkeys (s.index.filter (fun p => decide (d ∈ p.2) && decide (p.2.erase d = ∅))) from rfl]
  rw [mem_dkeys_filter _ _ _ hnd]
  simp

theorem mem_dkeys_removeTouched (s : InvertedIndex) (d t : String)
    (hnd : (dkeys s.index).Nodup) :
    t ∈ dkeys (removeTouched s d) ↔ ∃ P, dlookup s.index t = some P ∧ d ∈ P := by
  unfold removeTouched
  rw [mem_dkeys_filter _ _ _ hnd]
  simp

theorem dlookup_removeIdx1 (s : InvertedIndex) (d t : String) :
    dlookup (removeIdx1 s d) t = (dlookup s.index t).map (fun P => P.erase d) :=
  dlookup_map_snd s.index (fun _ P => P.erase d) t

theorem dkeys_removeIdx1 (s : InvertedIndex) (d : String) :
    dkeys (removeIdx1 s d) = dkeys s.index :=
  dkeys_map_snd s.index (fun _ P => P.erase d)

theorem dkeys_removeDf1 (s : InvertedIndex) (d : String)
    (hkeys : dkeys s.doc_freq = dkeys s.index) :
    dkeys (removeDf1 s d) = dkeys s.doc_freq := by
  apply dkeys_foldl_dec
  intro p hp
  rw [hkeys]
  exact List.mem_map.mpr ⟨p, (List.mem_filter.mp hp).1, rfl⟩

theorem dlookup_removeDf1 (s : InvertedIndex) (d t : String)
    (hnd : (dkeys s.index).Nodup) :
    dlookup (removeDf1 s d) t =
      if t ∈ dkeys (removeTouched s d) then
        some ((dlookup s.doc_freq t).getD 0 - 1)
      else dlookup s.doc_freq t :=
  dlookup_foldl_dec _ _ _ (dkeys_filter_nodup _ _ hnd)

theorem remove_document_inv (s : InvertedIndex) (d : String) (h : IndexInv s) :
    IndexInv (remove_document s d) := by
  unfold remove_document
  by_cases hd : dmem s.doc_lengths d
  · rw [if_pos hd]
    have hndIdx1 : (dkeys (removeIdx1 s d)).Nodup := by
      rw [dkeys_removeIdx1]; exact h.nodupIdx
    have hndDf1 : (dkeys (removeDf1 s d)).Nodup := by
      rw [dkeys_removeDf1 s d h.keysEq, h.keysEq]; exact h.nodupIdx
    have hIdxLk : ∀ t, dlookup ((removeKeys s d).foldl (fun m t => derase m t)
        (removeIdx1 s d)) t =
        if t ∈ removeKeys s d then none
        else (dlookup s.index t).map (fun P => P.erase d) := by
      intro t
      rw [dlookup_foldl_derase _ _ _ hndIdx1, dlookup_removeIdx1]
    have hDfLk : ∀ t, dlookup ((removeKeys s d).foldl (fun m t => derase m t)
        (removeDf1 s d)) t =
        if t ∈ removeKeys s d then none else dlookup (removeDf1 s d) t := by
      intro t
      rw [dlookup_foldl_derase _ _ _ hndDf1]
    constructor
    ·
      rw [dkeys_foldl_derase, dkeys_removeIdx1]
      exact nodup_foldl_erase _ _ h.nodupIdx
    ·
      rw [dkeys_derase]
      exact h.nodupDl.erase d
    ·
      rw [dkeys_foldl_derase, dkeys_foldl_derase, dkeys_removeIdx1,
        dkeys_removeDf1 s d h.keysEq, h.keysEq]
    ·
      intro t p hp
      rw [hIdxLk t] at hp
      by_cases hin : t ∈ removeKeys s d
      · rw [if_pos hin] at hp; exact absurd hp (by simp)
      · rw [if_neg hin] at hp
        rcases Option.map_eq_some'.mp hp with ⟨P, hP, hPe⟩
        obtain ⟨hPne, hPdf⟩ := h.postings t P hP
        rw [hDfLk t, if_neg hin, dlookup_removeDf1 s d t h.nodupIdx]
        by_cases hdP : d ∈ P
        · have herase : P.erase d ≠ ∅ := by
            intro he
            exact hin ((mem_removeKeys s d t h.nodupIdx).mpr ⟨P, hP, hdP, he⟩)
          have hTouch : t ∈ dkeys (removeTouched s d) :=
            (mem_dkeys_removeTouched s d t h.nodupIdx).mpr ⟨P, hP, hdP⟩
          refine ⟨hPe ▸ herase, ?_⟩
          rw [if_pos hTouch, hPdf]
          have hcard : (P.erase d).card = P.card - 1 := Finset.card_erase_of_mem hdP
          have hle : 1 ≤ P.card := Finset.one_le_card.mpr ⟨d, hdP⟩
          subst hPe
          rw [hcard]
          simp [Nat.cast_sub hle]
        · have hTouch : t ∉ dkeys (removeTouched s d) := by
            rw [mem_dkeys_removeTouched s d t h.nodupIdx]
            rintro ⟨P', hP', hdP'⟩
            rw [hP] at hP'
            injection hP' with hPP
            exact hdP (hPP ▸ hdP')
          have heq : P.erase d = P := Finset.erase_eq_of_not_mem hdP
          subst hPe
          rw [heq]
          exact ⟨hPne, by rw [if_neg hTouch, hPdf]⟩
    ·
      intro t p hp x hx
      rw [hIdxLk t] at hp
      by_cases hin : t ∈ removeKeys s d
      · rw [if_pos hin] at hp; exact absurd hp (by simp)
      · rw [if_neg hin] at hp
        rcases Option.map_eq_some'.mp hp with ⟨P, hP, hPe⟩
        subst hPe
        have hxd : x ≠ d := Finset.ne_of_mem_erase hx
        have hxP : x ∈ P := Finset.mem_of_mem_erase hx
        have := h.tracked t P hP x hxP
        rw [dkeys_derase]
        exact List.mem_erase_of_ne hxd |>.mpr this
    · rfl
  · rw [if_neg hd]
    exact h

theorem addToken_fold (d : String) (ts : List String) (dlKeys : List String)
    (hd : d ∈ dlKeys) :
    ∀ (idx : List (String × Finset String)) (df : List (String × Int)),
      (dkeys idx).Nodup →
      dkeys df = dkeys idx →
      (∀ t p, dlookup idx t = some p → p ≠ ∅ ∧ dlookup df t = some (p.card : Int)) →
      (∀ t p, dlookup idx t = some p → ∀ x ∈ p, x ∈ dlKeys) →
      (dkeys (ts.foldl (addToken d) (idx, df)).1).Nodup ∧
      dkeys (ts.foldl (addToken d) (idx, df)).2 =
        dkeys (ts.foldl (addToken d) (idx, df)).1 ∧
      (∀ t p, dlookup (ts.foldl (addToken d) (idx, df)).1 t = some p →
        p ≠ ∅ ∧ dlookup (ts.foldl (addToken d) (idx, df)).2 t = some (p.card : Int)) ∧
      (∀ t p, dlookup (ts.foldl (addToken d) (idx, df)).1 t = some p →
        ∀ x ∈ p, x ∈ dlKeys) := by
  induction ts with
  | nil => intro idx df h1 h2 h3 h4; exact ⟨h1, h2, h3, h4⟩
  | cons t rest ih =>
    intro idx df h1 h2 h3 h4
    simp only [List.foldl_cons]
    by_cases hmem : d ∈ (dlookup idx t).getD ∅
    · have ha : addToken d (idx, df) t = (idx, df) := by
        unfold addToken; simp [hmem]
      rw [ha]
      exact ih idx df h1 h2 h3 h4
    · cases hcase : dlookup idx t with
      | none =>
        have ht : t ∉ dkeys idx := by
          rw [← dlookup_isSome_iff_mem, hcase]; simp
        have htdf : t ∉ dkeys df := by rw [h2]; exact ht
        have hdfnone : dlookup df t = none := dlookup_eq_none_of_not_mem df t htdf
        have ha : addToken d (idx, df) t =
            (dset idx t {d}, dset df t 1) := by
          unfold addToken
          simp [hcase, hdfnone]
        rw [ha]
        refine ih (dset idx t {d}) (dset df t 1) ?_ ?_ ?_ ?_
        · rw [dkeys_dset_not_mem idx t _ ht]
          simp [List.nodup_append, h1, ht]
        · rw [dkeys_dset_not_mem idx t _ ht, dkeys_dset_not_mem df t _ htdf, h2]
        · intro u p hp
          by_cases hut : t = u
          · subst hut
            rw [dlookup_dset_self] at hp
            injection hp with hp
            subst hp
            rw [dlookup_dset_self]
            simp
          · rw [dlookup_dset_ne _ _ _ _ hut] at hp
            obtain ⟨hne, hdfu⟩ := h3 u p hp
            rw [dlookup_dset_ne _ _ _ _ hut]
            exact ⟨hne, hdfu⟩
        · intro u p hp x hx
          by_cases hut : t = u
          · subst hut
            rw [dlookup_dset_self] at hp
            injection hp with hp
            subst hp
            simp at hx
            subst hx
            exact hd
          · rw [dlookup_dset_ne _ _ _ _ hut] at hp
            exact h4 u p hp x hx
      | some P =>
        have hmemP : d ∉ P := by rw [hcase] at hmem; simpa using hmem
        have ht : t ∈ dkeys idx := mem_dkeys_of_dlookup idx t P hcase
        have htdf : t ∈ dkeys df := by rw [h2]; exact ht
        obtain ⟨hPne, hPdf⟩ := h3 t P hcase
        have ha : addToken d (idx, df) t =
            (dset idx t (insert d P), dset df t ((P.card : Int) + 1)) := by
          unfold addToken
          simp [hcase, hPdf, hmemP]
        rw [ha]
        refine ih (dset idx t (insert d P)) (dset df t ((P.card : Int) + 1)) ?_ ?_ ?_ ?_
        · rw [dkeys_dset_mem idx t _ ht]; exact h1
        · rw [dkeys_dset_mem idx t _ ht, dkeys_dset_mem df t _ htdf, h2]
        · intro u p hp
          by_cases hut : t = u
          · subst hut
            rw [dlookup_dset_self] at hp
            injection hp with hp
            subst hp
            rw [dlookup_dset_self]
            constructor
            · exact Finset.insert_ne_empty d P
            · rw [Finset.card_insert_of_not_mem hmemP]
              push_cast
              ring_nf
          · rw [dlookup_dset_ne _ _ _ _ hut] at hp
            rw [dlookup_dset_ne _ _ _ _ hut]
            exact h3 u p hp
        · intro u p hp x hx
          by_cases hut : t = u
          · subst hut
            rw [dlookup_dset_self] at hp
            injection hp with hp
            subst hp
            rcases Finset.mem_insert.mp hx with hx | hx
            · subst hx; exact hd
            · exact h4 t P hcase x hx
          · rw [dlookup_dset_ne _ _ _ _ hut] at hp
            exact h4 u p hp x hx

theorem add_document_inv (s : InvertedIndex) (doc_id text : String)
    (cats : List String) (h : IndexInv s) :
    IndexInv (add_document s doc_id text cats) := by
  have h₁ : IndexInv (addBase s doc_id) := by
    unfold addBase
    split
    · exact remove_document_inv s doc_id h
    · exact h
  have hnotin : doc_id ∉ dkeys (addBase s doc_id).doc_lengths := by
    unfold addBase
    by_cases hd : dmem s.doc_lengths doc_id
    · rw [if_pos hd]
      unfold remove_document
      rw [if_pos hd]
      show doc_id ∉ dkeys (derase s.doc_lengths doc_id)
      rw [dkeys_derase]
      intro hmem
      exact ((List.Nodup.mem_erase_iff h.nodupDl).mp hmem).1 rfl
    · rw [if_neg hd]
      rw [← dlookup_isSome_iff_mem]
      simpa [dmem] using hd
  have hdl'keys : dkeys (dset (addBase s doc_id).doc_lengths doc_id
      (addTokensList text cats).length) =
      dkeys (addBase s doc_id).doc_lengths ++ [doc_id] :=
    dkeys_dset_not_mem _ _ _ hnotin
  have hdmem : doc_id ∈ dkeys (dset (addBase s doc_id).doc_lengths doc_id
      (addTokensList text cats).length) := by
    rw [hdl'keys]; simp
  have hsub : ∀ x, x ∈ dkeys (addBase s doc_id).doc_lengths →
      x ∈ dkeys (dset (addBase s doc_id).doc_lengths doc_id
        (addTokensList text cats).length) := by
    rw [hdl'keys]; intro x hx; simp [hx]
  obtain ⟨g1, g2, g3, g4⟩ := addToken_fold doc_id (addTokensList text cats).dedup
    (dkeys (dset (addBase s doc_id).doc_lengths doc_id
      (addTokensList text cats).length)) hdmem
    (addBase s doc_id).index (addBase s doc_id).doc_freq
    h₁.nodupIdx h₁.keysEq h₁.postings
    (fun t p hp x hx => hsub x (h₁.tracked t p hp x hx))
  exact { nodupIdx := g1,
          nodupDl := by
            rw [show (add_document s doc_id text cats).doc_lengths =
              dset (addBase s doc_id).doc_lengths doc_id
                (addTokensList text cats).length from rfl, hdl'keys]
            simp [List.nodup_append, h₁.nodupDl, hnotin],
          keysEq := g2,
          postings := g3,
          tracked := g4,
          totalEq := rfl }

/-- Every reachable state of the inverted index satisfies the invariant. -/
theorem reachable_inv (s : InvertedIndex) (h : Reachable s) : IndexInv s := by
  induction h with
  | init => exact inv_empty
  | add s doc_id text cats _ ih => exact add_document_inv s doc_id text cats ih
  | remove s doc_id _ ih => exact remove_document_inv s doc_id ih

/-- A small concrete reachable index used by the witnesses below. -/
def S0 : InvertedIndex := add_document InvertedIndex.empty "d1" "hello world" []

/-- **C1.** For every reachable state of the inverted index (reachable by
any sequence of `add_document` and `remove_document` calls) and every
token `t` present in the index, the posting set `postings[t]` is
non-empty and its cardinality equals `doc_freq[t]`; no token with an
empty posting set exists in the index. -/
theorem C1_postings_doc_freq (s : InvertedIndex) (h : Reachable s)
    (t : String) (p : Finset String) (hp : dlookup s.index t = some p) :
    p ≠ ∅ ∧ dlookup s.doc_freq t = some (p.card : Int) :=
  (reachable_inv s h).postings t p hp

/-- Witness for C1 at a concrete reachable state. -/
theorem C1_postings_doc_freq_witness :
    dlookup S0.index "hello" = some {"d1"} ∧
    ({"d1"} : Finset String) ≠ ∅ ∧
    dlookup S0.doc_freq "hello" = some ((({"d1"} : Finset String).card : Int)) :=
  ⟨by decide,
   C1_postings_doc_freq S0
     (Reachable.add InvertedIndex.empty "d1" "hello world" [] Reachable.init)
     "hello" {"d1"} (by decide)⟩

/-! ## Claim C2: add then remove restores the state -/

section DictCancel

set_option linter.unusedSectionVars false

variable {κ : Type} [DecidableEq κ] {α : Type}

theorem derase_dset_cancel (m : List (κ × α)) (k : κ) (v : α)
    (h : k ∉ dkeys m) : derase (dset m k v) k = m := by
  induction m with
  | nil => simp
  | cons p rest ih =>
    obtain ⟨a, b⟩ := p
    have hp : a ≠ k := fun hk => h (by simp [hk])
    have h' : k ∉ dkeys rest := fun hk => h (by simp [hk])
    simp [hp, ih h']

theorem foldl_erase_append (ks : List κ) (l₁ l₂ : List κ)
    (h₁ : ∀ k ∈ ks, k ∉ l₁) :
    ks.foldl (fun l t => l.erase t) (l₁ ++ l₂) =
      l₁ ++ ks.foldl (fun l t => l.erase t) l₂ := by
  induction ks generalizing l₂ with
  | nil => simp
  | cons k rest ih =>
    simp only [List.foldl_cons]
    rw [List.erase_append_right _ (h₁ k (by simp))]
    exact ih (l₂.erase k) (fun k' hk' => h₁ k' (by simp [hk']))

theorem foldl_erase_eq_nil (ks : List κ) (l : List κ) (hnd : l.Nodup)
    (hsub : ∀ k ∈ l, k ∈ ks) :
    ks.foldl (fun l t => l.erase t) l = [] := by
  have hmem := mem_foldl_erase ks l hnd
  apply List.eq_nil_iff_forall_not_mem.mpr
  intro k hk
  rcases (hmem k).mp hk with ⟨hkl, hks⟩
  exact hks (hsub k hkl)

end DictCancel

/-- Lookup characterization of the token loop of `add_document` when the
document is fresh: every processed token gains `doc_id` in its posting and
one unit of `doc_freq`; other tokens are untouched. -/
theorem addToken_fold_lookup (d : String) (ts : List String) (hnd : ts.Nodup) :
    ∀ (idx : List (String × Finset String)) (df : List (String × Int)),
      (∀ t ∈ ts, ∀ p, dlookup idx t = some p → d ∉ p) →
      (∀ t, dlookup (ts.foldl (addToken d) (idx, df)).1 t =
        if t ∈ ts then some (insert d ((dlookup idx t).getD ∅))
        else dlookup idx t) ∧
      (∀ t, dlookup (ts.foldl (addToken d) (idx, df)).2 t =
        if t ∈ ts then some ((dlookup df t).getD 0 + 1) else dlookup df t) := by
  induction ts with
  | nil => intro idx df _; simp
  | cons t₀ rest ih =>
    intro idx df hfresh
    have hd0 : d ∉ (dlookup idx t₀).getD ∅ := by
      cases hcase : dlookup idx t₀ with
      | none => simp
      | some P => simpa using hfresh t₀ (by simp) P hcase
    have ha : addToken d (idx, df) t₀ =
        (dset idx t₀ (insert d ((dlookup idx t₀).getD ∅)),
         dset df t₀ ((dlookup df t₀).getD 0 + 1)) := by
      unfold addToken
      simp [hd0]
    have hndr : rest.Nodup := (List.nodup_cons.mp hnd).2
    have ht₀r : t₀ ∉ rest := (List.nodup_cons.mp hnd).1
    have hfresh' : ∀ t ∈ rest, ∀ p,
        dlookup (dset idx t₀ (insert d ((dlookup idx t₀).getD ∅))) t = some p →
        d ∉ p := by
      intro t ht p hp
      have hne : t₀ ≠ t := fun he => ht₀r (he ▸ ht)
      rw [dlookup_dset_ne _ _ _ _ hne] at hp
      exact hfresh t (by simp [ht]) p hp
    obtain ⟨ihIdx, ihDf⟩ := ih hndr _ _ hfresh'
    constructor
    · intro t
      simp only [List.foldl_cons, ha]
      rw [ihIdx t]
      by_cases htr : t ∈ rest
      · have hne : t₀ ≠ t := fun he => ht₀r (he ▸ htr)
        rw [dlookup_dset_ne _ _ _ _ hne]
        simp [htr]
      · by_cases ht0 : t = t₀
        · subst ht0
          rw [dlookup_dset_self]
          simp [htr]
        · have hne : t₀ ≠ t := fun he => ht0 he.symm
          rw [dlookup_dset_ne _ _ _ _ hne]
          simp [htr, ht0]
    · intro t
      simp only [List.foldl_cons, ha]
      rw [ihDf t]
      by_cases htr : t ∈ rest
      · have hne : t₀ ≠ t := fun he => ht₀r (he ▸ htr)
        rw [dlookup_dset_ne _ _ _ _ hne]
        simp [htr]
      · by_cases ht0 : t = t₀
        · subst ht0
          rw [dlookup_dset_self]
          simp [htr]
        · have hne : t₀ ≠ t := fun he => ht0 he.symm
          rw [dlookup_dset_ne _ _ _ _ hne]
          simp [htr, ht0]

/-- Key-list characterization of the token loop of `add_document`: fresh
tokens are appended in processing order, existing keys stay in place. -/
theorem addToken_fold_keys (d : String) (ts : List String) (hnd : ts.Nodup) :
    ∀ (idx : List (String × Finset String)) (df : List (String × Int)),
      dkeys df = dkeys idx →
      dkeys (ts.foldl (addToken d) (idx, df)).1 =
        dkeys idx ++ ts.filter (fun t => decide (t ∉ dkeys idx)) ∧
      dkeys (ts.foldl (addToken d) (idx, df)).2 =
        dkeys idx ++ ts.filter (fun t => decide (t ∉ dkeys idx)) := by
  induction ts with
  | nil => intro idx df hkeys; simp [hkeys]
  | cons t₀ rest ih =>
    intro idx df hkeys
    have hndr : rest.Nodup := (List.nodup_cons.mp hnd).2
    have ht₀r : t₀ ∉ rest := (List.nodup_cons.mp hnd).1
    simp only [List.foldl_cons]
    by_cases ht₀ : t₀ ∈ dkeys idx
    · have ht₀df : t₀ ∈ dkeys df := by rw [hkeys]; exact ht₀
      have hkeys1 : dkeys (addToken d (idx, df) t₀).1 = dkeys idx := by
        unfold addToken
        by_cases hmem : d ∈ (dlookup (idx, df).1 t₀).getD ∅
        · simp [hmem]
        · simp only [hmem, if_false]
          exact dkeys_dset_mem idx t₀ _ ht₀
      have hkeys2 : dkeys (addToken d (idx, df) t₀).2 = dkeys df := by
        unfold addToken
        by_cases hmem : d ∈ (dlookup (idx, df).1 t₀).getD ∅
        · simp [hmem]
        · simp only [hmem, if_false]
          exact dkeys_dset_mem df t₀ _ ht₀df
      obtain ⟨ih1, ih2⟩ := ih hndr (addToken d (idx, df) t₀).1
        (addToken d (idx, df) t₀).2 (by rw [hkeys1, hkeys2, hkeys])
      rw [hkeys1] at ih1 ih2
      constructor
      · rw [ih1]
        congr 1
        rw [List.filter_cons]
        simp [ht₀]
      · rw [ih2]
        congr 1
        rw [List.filter_cons]
        simp [ht₀]
    · have ht₀df : t₀ ∉ dkeys df := by rw [hkeys]; exact ht₀
      have hnone : dlookup idx t₀ = none := dlookup_eq_none_of_not_mem idx t₀ ht₀
      have hdfnone : dlookup df t₀ = none := dlookup_eq_none_of_not_mem df t₀ ht₀df
      have ha : addToken d (idx, df) t₀ = (dset idx t₀ {d}, dset df t₀ 1) := by
        unfold addToken
        simp [hnone, hdfnone]
      have ha1 : dkeys (addToken d (idx, df) t₀).1 = dkeys idx ++ [t₀] := by
        rw [ha]; exact dkeys_dset_not_mem idx t₀ _ ht₀
      have ha2 : dkeys (addToken d (idx, df) t₀).2 = dkeys df ++ [t₀] := by
        rw [ha]; exact dkeys_dset_not_mem df t₀ _ ht₀df
      have hkeys' : dkeys (addToken d (idx, df) t₀).2 =
          dkeys (addToken d (idx, df) t₀).1 := by
        rw [ha1, ha2, hkeys]
      obtain ⟨ih1, ih2⟩ := ih hndr (addToken d (idx, df) t₀).1
        (addToken d (idx, df) t₀).2 hkeys'
      rw [ih1, ih2, ha1]
      have hfilter : rest.filter (fun t => decide (t ∉ dkeys idx ++ [t₀])) =
          rest.filter (fun t => decide (t ∉ dkeys idx)) := by
        apply List.filter_congr
        intro t ht
        have hne : t ≠ t₀ := fun he => ht₀r (he ▸ ht)
        simp [hne]
      rw [hfilter]
      constructor <;>
        · rw [List.filter_cons]
          simp [ht₀]

/-- **C2.** On every reachable index state in which id `x` is not
present, `add_document(x, text, categories)` followed by
`remove_document(x)` restores the state exactly: identical `index`
(postings), `doc_freq`, `doc_lengths` and `total_docs`. -/
theorem C2_add_remove_roundtrip (s : InvertedIndex) (h : Reachable s)
    (x text : String) (cats : List String)
    (hx : dmem s.doc_lengths x = false) :
    remove_document (add_document s x text cats) x = s := by
  have hinv := reachable_inv s h
  have hinv' : IndexInv (add_document s x text cats) :=
    add_document_inv s x text cats hinv
  have hxdl : x ∉ dkeys s.doc_lengths := by
    rw [← dlookup_isSome_iff_mem]
    simp only [dmem] at hx
    simp [hx]
  have hbase : addBase s x = s := by
    unfold addBase
    simp [hx]
  have hfreshAll : ∀ t p, dlookup s.index t = some p → x ∉ p := by
    intro t p hp hxp
    exact hxdl (hinv.tracked t p hp x hxp)
  have hndu : (addTokensList text cats).dedup.Nodup := List.nodup_dedup _
  obtain ⟨hIdxL, hDfL⟩ := addToken_fold_lookup x (addTokensList text cats).dedup
    hndu s.index s.doc_freq (fun t _ p hp => hfreshAll t p hp)
  obtain ⟨hIdxK, hDfK⟩ := addToken_fold_keys x (addTokensList text cats).dedup
    hndu s.index s.doc_freq hinv.keysEq
  have hIdx' : ∀ t, dlookup (add_document s x text cats).index t =
      if t ∈ (addTokensList text cats).dedup then
        some (insert x ((dlookup s.index t).getD ∅))
      else dlookup s.index t := by
    intro t
    show dlookup ((addTokensList text cats).dedup.foldl (addToken x)
      ((addBase s x).index, (addBase s x).doc_freq)).1 t = _
    rw [hbase]
    exact hIdxL t
  have hDf' : ∀ t, dlookup (add_document s x text cats).doc_freq t =
      if t ∈ (addTokensList text cats).dedup then
        some ((dlookup s.doc_freq t).getD 0 + 1)
      else dlookup s.doc_freq t := by
    intro t
    show dlookup ((addTokensList text cats).dedup.foldl (addToken x)
      ((addBase s x).index, (addBase s x).doc_freq)).2 t = _
    rw [hbase]
    exact hDfL t
  have hdl' : (add_document s x text cats).doc_lengths =
      dset s.doc_lengths x (addTokensList text cats).length := by
    show dset (addBase s x).doc_lengths x (addTokensList text cats).length = _
    rw [hbase]
  have hmem' : dmem (add_document s x text cats).doc_lengths x = true := by
    rw [hdl']
    simp [dmem, dlookup_dset_self]
  have hRK : ∀ t, t ∈ removeKeys (add_document s x text cats) x ↔
      (t ∈ (addTokensList text cats).dedup ∧ t ∉ dkeys s.index) := by
    intro t
    rw [mem_removeKeys _ _ _ hinv'.nodupIdx]
    constructor
    · rintro ⟨P, hP, hxP, hPe⟩
      rw [hIdx' t] at hP
      by_cases htu : t ∈ (addTokensList text cats).dedup
      · rw [if_pos htu] at hP
        injection hP with hP
        subst hP
        refine ⟨htu, ?_⟩
        intro htk
        rcases (mem_dkeys_iff_lookup s.index t).mp htk with ⟨P₀, hP₀⟩
        have hxg : x ∉ (dlookup s.index t).getD ∅ := by
          rw [hP₀]
          simpa using hfreshAll t P₀ hP₀
        rw [Finset.erase_insert hxg] at hPe
        rw [hP₀] at hPe
        simp only [Option.getD_some] at hPe
        exact (hinv.postings t P₀ hP₀).1 hPe
      · rw [if_neg htu] at hP
        exact absurd hxP (hfreshAll t P hP)
    · rintro ⟨htu, htk⟩
      refine ⟨insert x ((dlookup s.index t).getD ∅), ?_, ?_, ?_⟩
      · rw [hIdx' t, if_pos htu]
      · exact Finset.mem_insert_self x _
      · have hnone : dlookup s.index t = none :=
          dlookup_eq_none_of_not_mem _ _ htk
        rw [hnone]
        simp [Finset.erase_insert]
  have hdisj : ∀ k ∈ removeKeys (add_document s x text cats) x,
      k ∉ dkeys s.index := fun k hk => ((hRK k).mp hk).2
  have hndNew : ((addTokensList text cats).dedup.filter
      (fun t => decide (t ∉ dkeys s.index))).Nodup := hndu.filter _
  have hsubNew : ∀ k ∈ (addTokensList text cats).dedup.filter
      (fun t => decide (t ∉ dkeys s.index)),
      k ∈ removeKeys (add_document s x text cats) x := by
    intro k hk
    rcases List.mem_filter.mp hk with ⟨hku, hkd⟩
    exact (hRK k).mpr ⟨hku, by simpa using hkd⟩
  have hKeysIdxFinal : dkeys ((removeKeys (add_document s x text cats) x).foldl
      (fun m t => derase m t) (removeIdx1 (add_document s x text cats) x)) =
      dkeys s.index := by
    rw [dkeys_foldl_derase, dkeys_removeIdx1]
    have hkk : dkeys (add_document s x text cats).index =
        dkeys s.index ++ (addTokensList text cats).dedup.filter
          (fun t => decide (t ∉ dkeys s.index)) := by
      show dkeys ((addTokensList text cats).dedup.foldl (addToken x)
        ((addBase s x).index, (addBase s x).doc_freq)).1 = _
      rw [hbase]
      exact hIdxK
    rw [hkk, foldl_erase_append _ _ _ hdisj,
      foldl_erase_eq_nil _ _ hndNew hsubNew]
    simp
  have hndIdx1' : (dkeys (removeIdx1 (add_document s x text cats) x)).Nodup := by
    rw [dkeys_removeIdx1]
    exact hinv'.nodupIdx
  have hLkIdxFinal : ∀ t,
      dlookup ((removeKeys (add_document s x text cats) x).foldl
        (fun m t => derase m t) (removeIdx1 (add_document s x text cats) x)) t =
      dlookup s.index t := by
    intro t
    rw [dlookup_foldl_derase _ _ _ hndIdx1', dlookup_removeIdx1]
    by_cases hrk : t ∈ removeKeys (add_document s x text cats) x
    · rw [if_pos hrk]
      rw [dlookup_eq_none_of_not_mem _ _ ((hRK t).mp hrk).2]
    · rw [if_neg hrk]
      rw [hIdx' t]
      by_cases htu : t ∈ (addTokensList text cats).dedup
      · rw [if_pos htu]
        have htk : t ∈ dkeys s.index := by
          by_contra htk
          exact hrk ((hRK t).mpr ⟨htu, htk⟩)
        rcases (mem_dkeys_iff_lookup s.index t).mp htk with ⟨P₀, hP₀⟩
        have hxg : x ∉ P₀ := hfreshAll t P₀ hP₀
        rw [hP₀]
        simp [Finset.erase_insert, hxg]
      · rw [if_neg htu]
        cases hcase : dlookup s.index t with
        | none => simp
        | some P₀ => simp [Finset.erase_eq_of_not_mem (hfreshAll t P₀ hcase)]
  have hTouch : ∀ t, t ∈ dkeys (removeTouched (add_document s x text cats) x) ↔
      t ∈ (addTokensList text cats).dedup := by
    intro t
    rw [mem_dkeys_removeTouched _ _ _ hinv'.nodupIdx]
    constructor
    · rintro ⟨P, hP, hxP⟩
      by_contra htu
      rw [hIdx' t, if_neg htu] at hP
      exact hfreshAll t P hP hxP
    · intro htu
      exact ⟨insert x ((dlookup s.index t).getD ∅),
        by rw [hIdx' t, if_pos htu], Finset.mem_insert_self x _⟩
  have hndDf1' : (dkeys (removeDf1 (add_document s x text cats) x)).Nodup := by
    rw [dkeys_removeDf1 _ _ hinv'.keysEq, hinv'.keysEq]
    exact hinv'.nodupIdx
  have hKeysDfFinal : dkeys ((removeKeys (add_document s x text cats) x).foldl
      (fun m t => derase m t) (removeDf1 (add_document s x text cats) x)) =
      dkeys s.doc_freq := by
    rw [dkeys_foldl_derase, dkeys_removeDf1 _ _ hinv'.keysEq]
    have hkk : dkeys (add_document s x text cats).doc_freq =
        dkeys s.index ++ (addTokensList text cats).dedup.filter
          (fun t => decide (t ∉ dkeys s.index)) := by
      show dkeys ((addTokensList text cats).dedup.foldl (addToken x)
        ((addBase s x).index, (addBase s x).doc_freq)).2 = _
      rw [hbase]
      exact hDfK
    rw [hkk, foldl_erase_append _ _ _ hdisj,
      foldl_erase_eq_nil _ _ hndNew hsubNew, hinv.keysEq]
    simp
  have hLkDfFinal : ∀ t,
      dlookup ((removeKeys (add_document s x text cats) x).foldl
        (fun m t => derase m t) (removeDf1 (add_document s x text cats) x)) t =
      dlookup s.doc_freq t := by
    intro t
    rw [dlookup_foldl_derase _ _ _ hndDf1',
      dlookup_removeDf1 _ _ _ hinv'.nodupIdx]
    by_cases hrk : t ∈ removeKeys (add_document s x text cats) x
    · rw [if_pos hrk]
      have hne : t ∉ dkeys s.doc_freq := by
        rw [hinv.keysEq]
        exact ((hRK t).mp hrk).2
      rw [dlookup_eq_none_of_not_mem _ _ hne]
    · rw [if_neg hrk]
      by_cases htu : t ∈ (addTokensList text cats).dedup
      · rw [if_pos ((hTouch t).mpr htu)]
        have htk : t ∈ dkeys s.index := by
          by_contra htk
          exact hrk ((hRK t).mpr ⟨htu, htk⟩)
        have htdf : t ∈ dkeys s.doc_freq := by
          rw [hinv.keysEq]
          exact htk
        rcases (mem_dkeys_iff_lookup s.doc_freq t).mp htdf with ⟨c, hc⟩
        rw [hDf' t, if_pos htu, hc]
        simp
      · have hnt : t ∉ dkeys (removeTouched (add_document s x text cats) x) :=
          fun hh => htu ((hTouch t).mp hh)
        rw [if_neg hnt, hDf' t, if_neg htu]
  unfold remove_document
  rw [if_pos hmem']
  refine InvertedIndex.ext ?_ ?_ ?_ ?_
  · exact dict_ext _ _ hKeysIdxFinal
      (by rw [hKeysIdxFinal]; exact hinv.nodupIdx) hLkIdxFinal
  · exact dict_ext _ _ hKeysDfFinal
      (by rw [hKeysDfFinal, hinv.keysEq]; exact hinv.nodupIdx) hLkDfFinal
  · show (derase (add_document s x text cats).doc_lengths x).length = s.total_docs
    rw [hdl', derase_dset_cancel _ _ _ hxdl, hinv.totalEq]
  · show derase (add_document s x text cats).doc_lengths x = s.doc_lengths
    rw [hdl', derase_dset_cancel _ _ _ hxdl]

/-- Witness for C2 at a concrete reachable state and fresh id. -/
theorem C2_add_remove_roundtrip_witness :
    dmem S0.doc_lengths "d2" = false ∧
    remove_document (add_document S0 "d2" "alpha beta" ["Books"]) "d2" = S0 :=
  ⟨by decide,
   C2_add_remove_roundtrip S0
     (Reachable.add InvertedIndex.empty "d1" "hello world" [] Reachable.init)
     "d2" "alpha beta" ["Books"] (by decide)⟩

/-! ## Claim C3: `InvertedIndex.search` -/

/-- Python `not q.strip()`: true iff every character is whitespace. -/
def stripEmpty (q : String) : Bool := q.data.all (fun c => c.isWhitespace)

/-- The keys of the `doc_scores` defaultdict of `search`, in insertion
order: for each query token found in the index, every document of its
posting list receives a score contribution (a key is created even when
the contribution is `0.0`).  CPython leaves set iteration order
unspecified, so the posting set is enumerated in a fixed (sorted) order;
the claims are independent of this order. -/
def searchCandidates (s : InvertedIndex) (qtokens : List String) : List String :=
  qtokens.foldl (fun acc t =>
    match dlookup s.index t with
    | none => acc
    | some p => (p.sort (fun a b => a ≤ b)).foldl
        (fun acc d => if d ∈ acc then acc else acc ++ [d]) acc) []

/-- `InvertedIndex.search`, returning the ranked document ids.  The float
TF-IDF scores are not modelled: `rank` stands for the final
`results.sort(key=lambda x: x[1], reverse=True)` pass over
`doc_scores.items()` and is an arbitrary function; the claims proved
below hold for every `rank` that permutes its input, which any sort
does. -/
def search (s : InvertedIndex) (q : String) (limit : Nat)
    (rank : List String → List String) : List String :=
  if stripEmpty q then []
  else if tokenize q = [] then []
  else (rank (searchCandidates s (tokenize q))).take limit

theorem mem_dedupFold (l : List String) (acc : List String) (d : String)
    (h : d ∈ l.foldl (fun acc d => if d ∈ acc then acc else acc ++ [d]) acc) :
    d ∈ acc ∨ d ∈ l := by
  induction l generalizing acc with
  | nil => exact Or.inl h
  | cons e rest ih =>
    simp only [List.foldl_cons] at h
    rcases ih _ h with h1 | h1
    · by_cases he : e ∈ acc
      · rw [if_pos he] at h1
        exact Or.inl h1
      · rw [if_neg he] at h1
        rcases List.mem_append.mp h1 with h2 | h2
        · exact Or.inl h2
        · simp at h2
          exact Or.inr (by simp [h2])
    · exact Or.inr (by simp [h1])

theorem mem_searchCandidates (s : InvertedIndex) (ts : List String) (d : String)
    (h : d ∈ searchCandidates s ts) :
    ∃ t ∈ ts, ∃ p, dlookup s.index t = some p ∧ d ∈ p := by
  unfold searchCandidates at h
  suffices haux : ∀ (ts : List String) (acc : List String),
      d ∈ ts.foldl (fun acc t =>
        match dlookup s.index t with
        | none => acc
        | some p => (p.sort (fun a b => a ≤ b)).foldl
            (fun acc d => if d ∈ acc then acc else acc ++ [d]) acc) acc →
      d ∈ acc ∨ ∃ t ∈ ts, ∃ p, dlookup s.index t = some p ∧ d ∈ p by
    rcases haux ts [] h with h1 | h1
    · simp at h1
    · exact h1
  intro ts
  induction ts with
  | nil => intro acc h'; exact Or.inl h'
  | cons t rest ih =>
    intro acc h'
    simp only [List.foldl_cons] at h'
    cases hcase : dlookup s.index t with
    | none =>
      rw [hcase] at h'
      rcases ih _ h' with h1 | ⟨t', ht', hp⟩
      · exact Or.inl h1
      · exact Or.inr ⟨t', by simp [ht'], hp⟩
    | some p =>
      rw [hcase] at h'
      rcases ih _ h' with h1 | ⟨t', ht', hp⟩
      · rcases mem_dedupFold _ _ _ h1 with h2 | h2
        · exact Or.inl h2
        · exact Or.inr ⟨t, by simp, p, hcase, (Finset.mem_sort _).mp h2⟩
      · exact Or.inr ⟨t', by simp [ht'], hp⟩

/-- **C3.** For every index state, query `q`, and limit `k`, `search`
returns at most `k` results; every returned id lies in the posting set of
some token of `q` (the index's record that the document's token set meets
the query's token set); and a query that tokenizes to nothing returns the
empty list.  `rank` is the float score sort, an arbitrary permutation. -/
theorem C3_search_properties (s : InvertedIndex) (q : String) (limit : Nat)
    (rank : List String → List String) (hrank : ∀ l, (rank l).Perm l) :
    (search s q limit rank).length ≤ limit ∧
    (∀ d ∈ search s q limit rank, ∃ t ∈ tokenize q, ∃ p,
      dlookup s.index t = some p ∧ d ∈ p) ∧
    (tokenize q = [] → search s q limit rank = []) := by
  refine ⟨?_, ?_, ?_⟩
  · unfold search
    split
    · simp
    · split
      · simp
      · exact List.length_take_le _ _
  · intro d hd
    unfold search at hd
    split at hd
    · simp at hd
    · split at hd
      · simp at hd
      · have hd1 : d ∈ rank (searchCandidates s (tokenize q)) :=
          List.mem_of_mem_take hd
        have hd2 : d ∈ searchCandidates s (tokenize q) :=
          (hrank _).subset hd1
        exact mem_searchCandidates s _ d hd2
  · intro hq
    unfold search
    split
    · rfl
    · simp [hq]

/-- Witness for C3 at a concrete state, with the identity permutation as
the ranking pass. -/
theorem C3_search_properties_witness :
    (search S0 "hello" 10 id).length ≤ 10 ∧
    (∀ d ∈ search S0 "hello" 10 id, ∃ t ∈ tokenize "hello", ∃ p,
      dlookup S0.index t = some p ∧ d ∈ p) ∧
    (tokenize "hello" = [] → search S0 "hello" 10 id = []) :=
  C3_search_properties S0 "hello" 10 id (fun l => List.Perm.refl l)

/-! ## Product store, relevance scoring and the search endpoint -/

/-- The fields of a stored product record (`products_store[product_id] =
product.dict()`) that search and recommendations read. -/
structure StoredProduct where
  product_id : String
  title : String
  description : String
  categories : List String
  price_cents : Int
  currency : String
  stock : Int
deriving DecidableEq

/-- `len(set(a) & set(b))`: the number of distinct elements of `a` that
also occur in `b`. -/
def countInter (a b : List String) : Nat :=
  (a.dedup.filter (fun t => decide (t ∈ b))).length

/-- `calculate_relevance_score`: +3 per distinct query token in the title
tokens, +1 per distinct query token in the description tokens, +2 per
distinct query token equal to a lowercased category label, +0.5 when
`stock > 0`.  Float arithmetic on these dyadic values is exact, so `ℚ`
models the score exactly. -/
def calculate_relevance_score (p : StoredProduct)
    (query_tokens : List String) : ℚ :=
  (countInter query_tokens (tokenize p.title)) * 3 +
  (countInter query_tokens (tokenize p.description)) * 1 +
  (countInter query_tokens (p.categories.map lowerStr)) * 2 +
  (if p.stock > 0 then 1/2 else 0)

/-- `if category and category.lower() not in [...]`: an empty string is
falsy, so an empty category filter is skipped. -/
def categoryFails (category : Option String) (p : StoredProduct) : Bool :=
  match category with
  | none => false
  | some c => decide (c ≠ "") &&
      decide (lowerStr c ∉ p.categories.map lowerStr)

/-- `if min_price and product.get('price_cents', 0) < min_price`: the
integer `0` is falsy, so a zero bound is skipped. -/
def minPriceFails (minPrice : Option Int) (p : StoredProduct) : Bool :=
  match minPrice with
  | none => false
  | some v => decide (v ≠ 0) && decide (p.price_cents < v)

/-- `if max_price and product.get('price_cents', 0) > max_price`. -/
def maxPriceFails (maxPrice : Option Int) (p : StoredProduct) : Bool :=
  match maxPrice with
  | none => false
  | some v => decide (v ≠ 0) && decide (p.price_cents > v)

/-- The result-collection loop of `/api/search`: walk the TF-IDF
candidates, skip unknown ids and filtered-out products, attach the
relevance score to each survivor, and break once `len(results) >= limit`
(checked after appending, as in the source).  Only the id and score
fields of the emitted `SearchResult` are modelled. -/
def collectResults (store : List (String × StoredProduct))
    (qtokens : List String) (category : Option String)
    (minPrice maxPrice : Option Int) (limit : Nat) :
    List String → List (String × ℚ) → List (String × ℚ)
  | [], acc => acc
  | pid :: rest, acc =>
    match dlookup store pid with
    | none => collectResults store qtokens category minPrice maxPrice limit rest acc
    | some p =>
      if categoryFails category p || minPriceFails minPrice p ||
          maxPriceFails maxPrice p then
        collectResults store qtokens category minPrice maxPrice limit rest acc
      else
        if limit ≤ (acc ++ [(pid, calculate_relevance_score p qtokens)]).length then
          acc ++ [(pid, calculate_relevance_score p qtokens)]
        else
          collectResults store qtokens category minPrice maxPrice limit rest
            (acc ++ [(pid, calculate_relevance_score p qtokens)])

/-- `/api/search` (`search_products`): whitespace-only queries return no
results; otherwise the ids from the TF-IDF recall pass (`candidates`
stands for `inverted_index.search(q, limit * 2)`, whose float-determined
order is left arbitrary) are filtered, scored, and finally re-sorted by
descending relevance score with Python's stable sort. -/
def search_products (store : List (String × StoredProduct))
    (candidates : List String) (q : String) (limit : Nat)
    (category : Option String) (minPrice maxPrice : Option Int) :
    List (String × ℚ) :=
  if stripEmpty q then []
  else
    List.insertionSort (fun a b => b.2 ≤ a.2)
      (collectResults store (tokenize q) category minPrice maxPrice limit
        candidates [])

theorem collectResults_cons_none (store : List (String × StoredProduct))
    (qtokens : List String) (category : Option String)
    (minPrice maxPrice : Option Int) (limit : Nat) (pid : String)
    (rest : List String) (acc : List (String × ℚ))
    (h : dlookup store pid = none) :
    collectResults store qtokens category minPrice maxPrice limit
      (pid :: rest) acc =
    collectResults store qtokens category minPrice maxPrice limit rest acc := by
  conv_lhs => unfold collectResults
  simp only [h]

theorem collectResults_cons_some (store : List (String × StoredProduct))
    (qtokens : List String) (category : Option String)
    (minPrice maxPrice : Option Int) (limit : Nat) (pid : String)
    (rest : List String) (acc : List (String × ℚ)) (p : StoredProduct)
    (h : dlookup store pid = some p) :
    collectResults store qtokens category minPrice maxPrice limit
      (pid :: rest) acc =
    if categoryFails category p || minPriceFails minPrice p ||
        maxPriceFails maxPrice p then
      collectResults store qtokens category minPrice maxPrice limit rest acc
    else
      if limit ≤ (acc ++ [(pid, calculate_relevance_score p qtokens)]).length then
        acc ++ [(pid, calculate_relevance_score p qtokens)]
      else
        collectResults store qtokens category minPrice maxPrice limit rest
          (acc ++ [(pid, calculate_relevance_score p qtokens)]) := by
  conv_lhs => unfold collectResults
  simp only [h]

theorem mem_collectResults (store : List (String × StoredProduct))
    (qtokens : List String) (category : Option String)
    (minPrice maxPrice : Option Int) (limit : Nat) :
    ∀ (cands : List String) (acc : List (String × ℚ)) (r : String × ℚ),
      r ∈ collectResults store qtokens category minPrice maxPrice limit cands acc →
      r ∈ acc ∨ ∃ p, dlookup store r.1 = some p ∧
        r.2 = calculate_relevance_score p qtokens := by
  intro cands
  induction cands with
  | nil => intro acc r h; exact Or.inl h
  | cons pid rest ih =>
    intro acc r h
    unfold collectResults at h
    cases hcase : dlookup store pid with
    | none =>
      simp only [hcase] at h
      exact ih acc r h
    | some p =>
      simp only [hcase] at h
      by_cases hf : categoryFails category p || minPriceFails minPrice p ||
          maxPriceFails maxPrice p
      · rw [if_pos hf] at h
        exact ih acc r h
      · rw [if_neg hf] at h
        have hstep : ∀ r', r' ∈ acc ++ [(pid, calculate_relevance_score p qtokens)] →
            r' ∈ acc ∨ ∃ p', dlookup store r'.1 = some p' ∧
              r'.2 = calculate_relevance_score p' qtokens := by
          intro r' hr'
          rcases List.mem_append.mp hr' with h1 | h1
          · exact Or.inl h1
          · simp at h1
            subst h1
            exact Or.inr ⟨p, hcase, rfl⟩
        split at h
        · exact hstep r h
        · rcases ih _ r h with h1 | h1
          · exact hstep r h1
          · exact Or.inr h1

/-- **C4.** Every result returned by the search endpoint carries the
score `3·(distinct query tokens in title tokens) + 1·(distinct query
tokens in description tokens) + 2·(distinct query tokens equal to a
lowercased category) + 0.5 if stock > 0` (this is
`calculate_relevance_score`), and the returned list is ordered by
descending values of this score: the re-rank is the final ordering,
whatever order the TF-IDF recall pass produced. -/
theorem C4_relevance_rerank (store : List (String × StoredProduct))
    (candidates : List String) (q : String) (limit : Nat)
    (category : Option String) (minPrice maxPrice : Option Int) :
    (∀ r ∈ search_products store candidates q limit category minPrice maxPrice,
      ∃ p, dlookup store r.1 = some p ∧
        r.2 = calculate_relevance_score p (tokenize q)) ∧
    (search_products store candidates q limit category minPrice
      maxPrice).Pairwise (fun a b => b.2 ≤ a.2) := by
  constructor
  · intro r hr
    unfold search_products at hr
    split at hr
    · simp at hr
    · have hr1 : r ∈ collectResults store (tokenize q) category minPrice
          maxPrice limit candidates [] :=
        (List.perm_insertionSort _ _).subset hr
      rcases mem_collectResults store (tokenize q) category minPrice maxPrice
        limit candidates [] r hr1 with h1 | h1
      · simp at h1
      · exact h1
  · unfold search_products
    split
    · simp
    · haveI : IsTotal (String × ℚ) (fun a b => b.2 ≤ a.2) :=
        ⟨fun a b => le_total b.2 a.2⟩
      haveI : IsTrans (String × ℚ) (fun a b => b.2 ≤ a.2) :=
        ⟨fun _ _ _ hab hbc => le_trans hbc hab⟩
      exact List.sorted_insertionSort _ _

/-- **C10.** A `min_price` or `max_price` equal to `0` behaves exactly as
an absent filter: the truthiness guard skips the comparison, so a zero
bound excludes no product. -/
theorem C10_zero_price_filters (store : List (String × StoredProduct))
    (candidates : List String) (q : String) (limit : Nat)
    (category : Option String) (minPrice maxPrice : Option Int) :
    search_products store candidates q limit category (some 0) maxPrice =
      search_products store candidates q limit category none maxPrice ∧
    search_products store candidates q limit category minPrice (some 0) =
      search_products store candidates q limit category minPrice none := by
  have hmin : ∀ p, minPriceFails (some 0) p = minPriceFails none p := by
    intro p; simp [minPriceFails]
  have hmax : ∀ p, maxPriceFails (some 0) p = maxPriceFails none p := by
    intro p; simp [maxPriceFails]
  have hcol1 : ∀ (cands : List String) (acc : List (String × ℚ)),
      collectResults store (tokenize q) category (some 0) maxPrice limit cands acc =
      collectResults store (tokenize q) category none maxPrice limit cands acc := by
    intro cands
    induction cands with
    | nil => intro acc; rfl
    | cons pid rest ih =>
      intro acc
      cases hcase : dlookup store pid with
      | none =>
        rw [collectResults_cons_none _ _ _ _ _ _ _ _ _ hcase,
          collectResults_cons_none _ _ _ _ _ _ _ _ _ hcase, ih]
      | some p =>
        rw [collectResults_cons_some _ _ _ _ _ _ _ _ _ _ hcase,
          collectResults_cons_some _ _ _ _ _ _ _ _ _ _ hcase, hmin p]
        split
        · rw [ih]
        · split
          · rfl
          · rw [ih]
  have hcol2 : ∀ (cands : List String) (acc : List (String × ℚ)),
      collectResults store (tokenize q) category minPrice (some 0) limit cands acc =
      collectResults store (tokenize q) category minPrice none limit cands acc := by
    intro cands
    induction cands with
    | nil => intro acc; rfl
    | cons pid rest ih =>
      intro acc
      cases hcase : dlookup store pid with
      | none =>
        rw [collectResults_cons_none _ _ _ _ _ _ _ _ _ hcase,
          collectResults_cons_none _ _ _ _ _ _ _ _ _ hcase, ih]
      | some p =>
        rw [collectResults_cons_some _ _ _ _ _ _ _ _ _ _ hcase,
          collectResults_cons_some _ _ _ _ _ _ _ _ _ _ hcase, hmax p]
        split
        · rw [ih]
        · split
          · rfl
          · rw [ih]
  constructor
  · unfold search_products
    split
    · rfl
    · rw [hcol1]
  · unfold search_products
    split
    · rfl
    · rw [hcol2]

/-! ## AutocompleteTrie (claim C5) -/

/-- A `TrieNode`: `children` is an insertion-ordered dict keyed by
character (creation order, as a Python dict), the `is_word` flag and the
`frequency` counter. -/
inductive Trie where
  | node (children : List (Char × Trie)) (is_word : Bool) (frequency : Nat)

/-- `TrieNode.__init__`. -/
def Trie.empty : Trie := .node [] false 0

/-- The descent loop of `AutocompleteTrie.insert` (functionally rebuilt):
descend character by character creating nodes as needed, then set
`is_word = True` and add `freq` to `frequency`. -/
def trieInsertAux : Trie → List Char → Nat → Trie
  | .node ch _ f, [], freq => .node ch true (f + freq)
  | .node ch w f, c :: cs, freq =>
    match dlookup ch c with
    | some child => .node (dset ch c (trieInsertAux child cs freq)) w f
    | none => .node (ch ++ [(c, trieInsertAux Trie.empty cs freq)]) w f

/-- `AutocompleteTrie.insert(word, frequency)`: lowercase, then descend. -/
def trieInsert (t : Trie) (word : String) (freq : Nat) : Trie :=
  trieInsertAux t (lowerStr word).data freq

mutual

/-- `AutocompleteTrie._collect_words`: the word at this node first (when
`is_word`), then the children in dict (creation) order. -/
def collectWords : Trie → String → List (String × Nat)
  | .node ch w f, pre =>
    (if w then [(pre, f)] else []) ++ collectChildren ch pre

def collectChildren : List (Char × Trie) → String → List (String × Nat)
  | [], _ => []
  | (c, t) :: rest, pre => collectWords t (pre.push c) ++ collectChildren rest pre

end

/-- The prefix-navigation loop of `search_prefix`: returns the node the
prefix leads to, or nothing when a step misses. -/
def descendTrie : Trie → List Char → Option Trie
  | t, [] => some t
  | .node ch _ _, c :: cs =>
    match dlookup ch c with
    | some child => descendTrie child cs
    | none => none

/-- `AutocompleteTrie.search_prefix(prefix, limit)`: empty prefix returns
empty; descend to the lowered prefix; collect all `(word, frequency)`
pairs; `suggestions.sort(key=lambda x: x[1], reverse=True)` (Python's
stable sort, modelled by the stable `insertionSort` under the
greater-or-equal-frequency relation), then the first `limit` words. -/
def search_prefix (t : Trie) (pre : String) (limit : Nat) : List String :=
  if pre = "" then []
  else
    match descendTrie t (lowerStr pre).data with
    | none => []
    | some n =>
      ((List.insertionSort (fun a b => b.2 ≤ a.2)
        (collectWords n (lowerStr pre))).take limit).map Prod.fst

/-- The trie holding "cab" (inserted first) and "caa", each once. -/
def TrieCabCaa : Trie := trieInsert (trieInsert Trie.empty "cab" 1) "caa" 1

/-- The trie holding "camera" ten times and "camisole" once. -/
def TrieCam : Trie :=
  trieInsert ((List.range 10).foldl (fun t _ => trieInsert t "camera" 1)
    Trie.empty) "camisole" 1

/-- **C5, counterexample.**  `"cab"` and `"caa"` are both stored with
frequency 1, so the claimed ascending-lexical tie-break would return
`["caa", "cab"]`; the code's stable sort keeps the depth-first collection
order (children in creation order) and returns `["cab", "caa"]`. -/
theorem C5_counterexample :
    search_prefix TrieCabCaa "ca" 5 = ["cab", "caa"] ∧
    search_prefix TrieCabCaa "ca" 5 ≠ ["caa", "cab"] := by
  constructor
  · decide
  · decide

/-- **C5, amended.**  For every trie and non-empty prefix whose descent
reaches node `n`, `search_prefix(p, k)` returns exactly the words of a
pair list `pairs` such that: every pair of `pairs` is one actually
collected from the trie (its frequency is the stored one), `pairs` is in
descending order of those true frequencies, it has
`min k #collected` entries, and every collected pair left out has
frequency at most that of every returned pair — i.e. the output is the
first `k` of the collection sorted descending by frequency, with ties
kept in depth-first collection order (children in creation order), not
ascending lexical order.  A prefix whose descent misses returns `[]`.
The concrete scenario of the claim holds as stated: after inserting
"camera" ten times and "camisole" once, `search_prefix("cam", 5)`
returns `["camera", "camisole"]` (the frequencies differ, so no tie is
involved). -/
theorem C5_amended_sorted_by_frequency :
    (∀ (t : Trie) (pre : String) (k : Nat) (n : Trie),
      descendTrie t (lowerStr pre).data = some n → pre ≠ "" →
      ∃ pairs : List (String × Nat),
        search_prefix t pre k = pairs.map Prod.fst ∧
        pairs.Pairwise (fun a b => b.2 ≤ a.2) ∧
        (∀ q ∈ pairs, q ∈ collectWords n (lowerStr pre)) ∧
        pairs.length = min k (collectWords n (lowerStr pre)).length ∧
        (∀ q ∈ collectWords n (lowerStr pre), q ∉ pairs →
          ∀ r ∈ pairs, q.2 ≤ r.2)) ∧
    (∀ (t : Trie) (pre : String) (k : Nat),
      descendTrie t (lowerStr pre).data = none →
      search_prefix t pre k = []) ∧
    search_prefix TrieCam "cam" 5 = ["camera", "camisole"] := by
  refine ⟨?_, ?_, by decide⟩
  · intro t pre k n hd hpre
    haveI : IsTotal (String × Nat) (fun a b => b.2 ≤ a.2) :=
      ⟨fun a b => le_total b.2 a.2⟩
    haveI : IsTrans (String × Nat) (fun a b => b.2 ≤ a.2) :=
      ⟨fun _ _ _ hab hbc => le_trans hbc hab⟩
    have hperm := List.perm_insertionSort (fun a b : String × Nat => b.2 ≤ a.2)
      (collectWords n (lowerStr pre))
    have hsorted := List.sorted_insertionSort
      (fun a b : String × Nat => b.2 ≤ a.2) (collectWords n (lowerStr pre))
    refine ⟨(List.insertionSort (fun a b => b.2 ≤ a.2)
      (collectWords n (lowerStr pre))).take k, ?_, ?_, ?_, ?_, ?_⟩
    · unfold search_prefix
      rw [if_neg hpre]
      simp only [hd]
    · exact hsorted.sublist (List.take_sublist _ _)
    · intro q hq
      exact hperm.subset (List.mem_of_mem_take hq)
    · rw [List.length_take, hperm.length_eq]
    · intro q hq hqnot r hr
      have hqs : q ∈ List.insertionSort (fun a b : String × Nat => b.2 ≤ a.2)
          (collectWords n (lowerStr pre)) := hperm.mem_iff.mpr hq
      rw [← List.take_append_drop k (List.insertionSort
        (fun a b : String × Nat => b.2 ≤ a.2)
        (collectWords n (lowerStr pre)))] at hqs hsorted
      have hqdrop : q ∈ (List.insertionSort
          (fun a b : String × Nat => b.2 ≤ a.2)
          (collectWords n (lowerStr pre))).drop k := by
        rcases List.mem_append.mp hqs with h1 | h1
        · exact absurd h1 hqnot
        · exact h1
      exact (List.pairwise_append.mp hsorted).2.2 r hr q hqdrop
  · intro t pre k hd
    unfold search_prefix
    split
    · rfl
    · rw [hd]

/-- The node the prefix "cam" reaches in `TrieCam`. -/
def NodeCam : Trie :=
  (descendTrie TrieCam (lowerStr "cam").data).getD Trie.empty

/-- Witness for the amended C5 at the concrete camera/camisole trie. -/
theorem C5_amended_sorted_by_frequency_witness :
    descendTrie TrieCam (lowerStr "cam").data = some NodeCam ∧
    ("cam" : String) ≠ "" ∧
    ∃ pairs : List (String × Nat),
      search_prefix TrieCam "cam" 5 = pairs.map Prod.fst ∧
      pairs.Pairwise (fun a b => b.2 ≤ a.2) ∧
      (∀ q ∈ pairs, q ∈ collectWords NodeCam (lowerStr "cam")) ∧
      pairs.length = min 5 (collectWords NodeCam (lowerStr "cam")).length ∧
      (∀ q ∈ collectWords NodeCam (lowerStr "cam"), q ∉ pairs →
        ∀ r ∈ pairs, q.2 ≤ r.2) :=
  ⟨rfl, by decide,
   C5_amended_sorted_by_frequency.1 TrieCam "cam" 5 NodeCam rfl (by decide)⟩

/-! ## RecommendationEngine (claims C6, C7, C8) -/

/-- The mutable state of `RecommendationEngine`: `view_matrix` is a
`defaultdict(Counter)` (both levels insertion-ordered dicts),
`category_matrix` a `defaultdict(set)` keyed by lowercased category
(a Python set of ids is modelled as a duplicate-free list in insertion
order — CPython leaves set iteration order unspecified, and no claim
depends on it), `price_ranges` a `defaultdict(list)`. -/
structure RecEngine where
  view_matrix : List (String × List (String × Nat))
  category_matrix : List (String × List String)
  price_ranges : List (String × List String)
deriving DecidableEq

/-- `RecommendationEngine.__init__`. -/
def RecEngine.empty : RecEngine :=
  { view_matrix := [], category_matrix := [], price_ranges := [] }

/-- One iteration of `record_view`:
`self.view_matrix[product_id][other_id] += 1` guarded by
`other_id != product_id` (a Counter reads missing keys as 0; the
defaultdict creates the row). -/
def recordStep (product_id : String)
    (vm : List (String × List (String × Nat))) (other : String) :
    List (String × List (String × Nat)) :=
  if other = product_id then vm
  else
    dset vm product_id
      (dset ((dlookup vm product_id).getD [])
        other (((dlookup ((dlookup vm product_id).getD []) other).getD 0) + 1))

/-- `RecommendationEngine.record_view(product_id, session_products)`. -/
def record_view (e : RecEngine) (product_id : String)
    (session_products : List String) : RecEngine :=
  { e with view_matrix :=
      session_products.foldl (recordStep product_id) e.view_matrix }

/-- The price bucket of `add_product_metadata` (`price_cents / 100` with
strict `<` cutoffs at 50, 100, 200, 500 dollars). -/
def priceRange (price_cents : Int) : String :=
  if price_cents < 5000 then "0-50"
  else if price_cents < 10000 then "50-100"
  else if price_cents < 20000 then "100-200"
  else if price_cents < 50000 then "200-500"
  else "500+"

/-- `RecommendationEngine.add_product_metadata(product_id, categories,
price_cents)`: add the id to each lowercased category's set and append it
to its price bucket. -/
def add_product_metadata (e : RecEngine) (product_id : String)
    (categories : List String) (price_cents : Int) : RecEngine :=
  { e with
    category_matrix := categories.foldl (fun m c =>
      dset m (lowerStr c)
        (if product_id ∈ (dlookup m (lowerStr c)).getD [] then
          (dlookup m (lowerStr c)).getD []
        else (dlookup m (lowerStr c)).getD [] ++ [product_id]))
      e.category_matrix,
    price_ranges := dset e.price_ranges (priceRange price_cents)
      (((dlookup e.price_ranges (priceRange price_cents)).getD []) ++
        [product_id]) }

/-- `Counter.most_common(n)`: the counter items sorted by descending
count with CPython's stable sort (ties keep insertion order), truncated
to `n`. -/
def most_common (c : List (String × Nat)) (n : Nat) : List (String × Nat) :=
  (List.insertionSort (fun a b => b.2 ≤ a.2) c).take n

/-- The category-fallback loop of `get_recommendations`: for each of the
product's categories in declared order, extend the recommendations with
the members of that category other than the focus id; when the list
reaches `limit`, truncate to `limit`, set the reason to the category
being processed, and break.  The reason is assigned only on this break
(`if len(recommendations) >= limit:` in the source). -/
def fallbackLoop (catMatrix : List (String × List String))
    (product_id : String) (limit : Nat) :
    List String → List String × String → List String × String
  | [], acc => acc
  | cat :: rest, acc =>
    if limit ≤ (acc.1 ++ ((dlookup catMatrix (lowerStr cat)).getD []).filter
        (fun pid => decide (pid ≠ product_id))).length then
      ((acc.1 ++ ((dlookup catMatrix (lowerStr cat)).getD []).filter
        (fun pid => decide (pid ≠ product_id))).take limit,
       "similar products in " ++ cat)
    else
      fallbackLoop catMatrix product_id limit rest
        (acc.1 ++ ((dlookup catMatrix (lowerStr cat)).getD []).filter
          (fun pid => decide (pid ≠ product_id)), acc.2)

/-- `RecommendationEngine.get_recommendations(product_id, limit)`:
collaborative filtering from the co-view matrix, then the category
fallback when fewer than `limit` results were produced and the product is
in the store. -/
def get_recommendations (e : RecEngine)
    (store : List (String × StoredProduct)) (product_id : String)
    (limit : Nat) : List String × String :=
  let phase1 : List String × String :=
    match dlookup e.view_matrix product_id with
    | none => ([], "")
    | some counter =>
      if (most_common counter limit).isEmpty then ([], "")
      else ((most_common counter limit).map Prod.fst,
        "frequently viewed together")
  if phase1.1.length < limit then
    match dlookup store product_id with
    | none => phase1
    | some p => fallbackLoop e.category_matrix product_id limit p.categories phase1
  else phase1

section DictMore

set_option linter.unusedSectionVars false

variable {κ : Type} [DecidableEq κ] {α : Type}

theorem dset_ne_nil (m : List (κ × α)) (k : κ) (v : α) : dset m k v ≠ [] := by
  cases m with
  | nil => simp
  | cons p rest =>
    obtain ⟨a, b⟩ := p
    by_cases hp : a = k <;> simp [hp]

theorem mem_dset (m : List (κ × α)) (k : κ) (v : α) (q : κ × α)
    (h : q ∈ dset m k v) : q = (k, v) ∨ q ∈ m := by
  induction m with
  | nil => simpa using h
  | cons p rest ih =>
    obtain ⟨a, b⟩ := p
    by_cases hp : a = k
    · subst hp
      simp only [dset_cons, if_pos rfl] at h
      rcases List.mem_cons.mp h with h1 | h1
      · exact Or.inl h1
      · exact Or.inr (by simp [h1])
    · simp only [dset_cons, if_neg hp] at h
      rcases List.mem_cons.mp h with h1 | h1
      · exact Or.inr (by simp [h1])
      · rcases ih h1 with h2 | h2
        · exact Or.inl h2
        · exact Or.inr (by simp [h2])

end DictMore

/-- After `record_view(a, S)`, `a`'s co-view counter exists and is
non-empty, provided it already was or some session id differs from
`a`. -/
theorem record_view_counter (a : String) (S : List String) :
    ∀ vm, ((∃ c, dlookup vm a = some c ∧ c ≠ []) ∨ (∃ b ∈ S, b ≠ a)) →
    ∃ c, dlookup (S.foldl (recordStep a) vm) a = some c ∧ c ≠ [] := by
  induction S with
  | nil =>
    intro vm h
    rcases h with h | ⟨b, hb, _⟩
    · exact h
    · simp at hb
  | cons b rest ih =>
    intro vm h
    simp only [List.foldl_cons]
    apply ih
    by_cases hb : b = a
    · rw [show recordStep a vm b = vm by simp [recordStep, hb]]
      rcases h with h | ⟨b', hb', hba⟩
      · exact Or.inl h
      · rcases List.mem_cons.mp hb' with h1 | h1
        · exact absurd (h1 ▸ hba) (by simp [hb])
        · exact Or.inr ⟨b', h1, hba⟩
    · left
      rw [show recordStep a vm b =
          dset vm a (dset ((dlookup vm a).getD [])
            b (((dlookup ((dlookup vm a).getD []) b).getD 0) + 1))
        by simp [recordStep, hb]]
      exact ⟨_, dlookup_dset_self _ _ _, dset_ne_nil _ _ _⟩

/-- The head of `most_common` is a maximal-count entry of the counter. -/
theorem most_common_head (c : List (String × Nat)) (k : Nat)
    (hc : c ≠ []) (hk : 0 < k) :
    ∃ w n rest, most_common c k = (w, n) :: rest ∧ (w, n) ∈ c ∧
      ∀ q ∈ c, q.2 ≤ n := by
  have hperm := List.perm_insertionSort (fun a b : String × Nat => b.2 ≤ a.2) c
  haveI : IsTotal (String × Nat) (fun a b => b.2 ≤ a.2) :=
    ⟨fun a b => le_total b.2 a.2⟩
  haveI : IsTrans (String × Nat) (fun a b => b.2 ≤ a.2) :=
    ⟨fun _ _ _ hab hbc => le_trans hbc hab⟩
  have hsorted := List.sorted_insertionSort
    (fun a b : String × Nat => b.2 ≤ a.2) c
  cases hs : List.insertionSort (fun a b : String × Nat => b.2 ≤ a.2) c with
  | nil =>
    rw [hs] at hperm
    exact absurd (hperm.symm.eq_nil) hc
  | cons s0 srest =>
    obtain ⟨w, n⟩ := s0
    cases k with
    | zero => exact absurd hk (by simp)
    | succ k' =>
      refine ⟨w, n, srest.take k', ?_, ?_, ?_⟩
      · unfold most_common
        rw [hs]
        rfl
      · exact hperm.subset (hs ▸ List.mem_cons_self _ _)
      · intro q hq
        have hq' : q ∈ List.insertionSort
            (fun a b : String × Nat => b.2 ≤ a.2) c := hperm.symm.subset hq
        rw [hs] at hq'
        rcases List.mem_cons.mp hq' with h1 | h1
        · rw [h1]
        · rw [hs] at hsorted
          exact (List.pairwise_cons.mp hsorted).1 q h1

def E6 : RecEngine := record_view RecEngine.empty "a" ["c", "b"]

/-- **C6, counterexample.**  After `record_view("a", ["c", "b"])` both
partners have co-view count 1, so the claimed ascending-id tie-break
would return `["b", "c"]`; `Counter.most_common`'s stable sort keeps
insertion order and the code returns `["c", "b"]`. -/
theorem C6_counterexample :
    (get_recommendations E6 [] "a" 2).1 = ["c", "b"] ∧
    (get_recommendations E6 [] "a" 2).1 ≠ ["b", "c"] ∧
    dlookup ((dlookup E6.view_matrix "a").getD []) "b" =
      dlookup ((dlookup E6.view_matrix "a").getD []) "c" :=
  ⟨by decide, by decide, by decide⟩

/-- **C6, amended.**  After `record_view(a, S)` (with some session id
other than `a`), as long as the category fallback does not fire (here:
`a` is not in the product store) `get_recommendations(a, k)` returns
reason "frequently viewed together" and a list headed by a partner with
the maximal co-view count; equal counts are resolved by the counter's
insertion order (first-recorded first), not by ascending id. -/
theorem C6_amended_top_coviewed (e : RecEngine)
    (store : List (String × StoredProduct)) (a : String) (S : List String)
    (k : Nat) (hS : ∃ b ∈ S, b ≠ a) (hstore : dlookup store a = none)
    (hk : 0 < k) :
    ∃ w n rest,
      (get_recommendations (record_view e a S) store a k).1 = w :: rest ∧
      (get_recommendations (record_view e a S) store a k).2 =
        "frequently viewed together" ∧
      (w, n) ∈ (dlookup (record_view e a S).view_matrix a).getD [] ∧
      ∀ q ∈ (dlookup (record_view e a S).view_matrix a).getD [], q.2 ≤ n := by
  have hvm : (record_view e a S).view_matrix =
      S.foldl (recordStep a) e.view_matrix := rfl
  obtain ⟨c, hc, hcne⟩ := record_view_counter a S e.view_matrix (Or.inr hS)
  obtain ⟨w, n, rest, hmc, hwn, hmax⟩ := most_common_head c k hcne hk
  refine ⟨w, n, rest.map Prod.fst, ?_, ?_, ?_, ?_⟩
  · simp only [get_recommendations, hvm, hc, hmc, List.isEmpty_cons,
      Bool.false_eq_true, if_false, hstore, List.map_cons]
    split <;> rfl
  · simp only [get_recommendations, hvm, hc, hmc, List.isEmpty_cons,
      Bool.false_eq_true, if_false, hstore, List.map_cons]
    split <;> rfl
  · rw [hvm, hc]
    exact hwn
  · rw [hvm, hc]
    exact hmax

/-- Witness for the amended C6 at a concrete engine. -/
theorem C6_amended_top_coviewed_witness :
    ∃ w n rest,
      (get_recommendations (record_view RecEngine.empty "a" ["b"]) []
        "a" 2).1 = w :: rest ∧
      (get_recommendations (record_view RecEngine.empty "a" ["b"]) []
        "a" 2).2 = "frequently viewed together" ∧
      (w, n) ∈ (dlookup (record_view RecEngine.empty "a" ["b"]).view_matrix
        "a").getD [] ∧
      ∀ q ∈ (dlookup (record_view RecEngine.empty "a" ["b"]).view_matrix
        "a").getD [], q.2 ≤ n :=
  C6_amended_top_coviewed RecEngine.empty [] "a" ["b"] 2
    (by decide) rfl (by decide)

def prodA : StoredProduct :=
  { product_id := "A", title := "Book A", description := "about books",
    categories := ["Books"], price_cents := 1500, currency := "USD",
    stock := 3 }

def prodB : StoredProduct :=
  { product_id := "B", title := "Book B", description := "another book",
    categories := ["Books"], price_cents := 1600, currency := "USD",
    stock := 2 }

def storeBooks : List (String × StoredProduct) := [("A", prodA), ("B", prodB)]

def E7 : RecEngine :=
  add_product_metadata (add_product_metadata RecEngine.empty "A" ["Books"] 1500)
    "B" ["Books"] 1600

/-- **C7, counterexample.**  The claim's own concrete scenario fails: with
no views recorded and products A and B sharing category "Books",
`get_recommendations("A", 3)` does return `["B"]`, but the reason is the
empty string, not one containing "Books" — the source assigns the reason
only when the accumulated recommendations reach `limit` and the loop
breaks, which does not happen here (1 < 3). -/
theorem C7_counterexample :
    get_recommendations E7 storeBooks "A" 3 = (["B"], "") ∧
    (get_recommendations E7 storeBooks "A" 3).2 ≠ "similar products in Books" :=
  ⟨by decide, by decide⟩

/-- **C7, amended.**  The category fallback sets the reason to
`"similar products in <category>"` only when the accumulated list reaches
`limit` while processing `<category>` (the loop then truncates to
`limit` and breaks); `<category>` is the category being processed at that
moment, not necessarily the first contributor.  Otherwise the reason is
left unchanged — in particular, in the claim's concrete scenario
`get_recommendations("A", 3)` returns `(["B"], "")` with an empty
reason. -/
theorem C7_amended_reason_only_on_break :
    (∀ (catMatrix : List (String × List String)) (pid : String)
      (limit : Nat) (cats : List String) (acc : List String × String),
      (fallbackLoop catMatrix pid limit cats acc).2 = acc.2 ∨
      ∃ c ∈ cats, (fallbackLoop catMatrix pid limit cats acc).2 =
          "similar products in " ++ c ∧
        (fallbackLoop catMatrix pid limit cats acc).1.length = limit) ∧
    get_recommendations E7 storeBooks "A" 3 = (["B"], "") := by
  constructor
  · intro catMatrix pid limit cats
    induction cats with
    | nil => intro acc; exact Or.inl rfl
    | cons cat rest ih =>
      intro acc
      unfold fallbackLoop
      split
      · right
        refine ⟨cat, by simp, rfl, ?_⟩
        rename_i hle
        rw [List.length_take]
        exact Nat.min_eq_left hle
      · rcases ih (acc.1 ++ ((dlookup catMatrix (lowerStr cat)).getD []).filter
          (fun pid' => decide (pid' ≠ pid)), acc.2) with h1 | ⟨c, hc, h2, h3⟩
        · exact Or.inl h1
        · exact Or.inr ⟨c, by simp [hc], h2, h3⟩
  · decide

def E8 : RecEngine :=
  add_product_metadata (record_view RecEngine.empty "a" ["b"]) "b" ["X"] 100

def prodA8 : StoredProduct :=
  { product_id := "a", title := "thing", description := "",
    categories := ["X"], price_cents := 100, currency := "USD", stock := 0 }

def store8 : List (String × StoredProduct) := [("a", prodA8)]

/-- **C8, counterexample.**  `"b"` was co-viewed with `"a"` and also
shares category "X" with it; the fallback extends the co-view results
without deduplication, so `get_recommendations("a", 2)` returns
`["b", "b"]` — a duplicate. -/
theorem C8_counterexample :
    (get_recommendations E8 store8 "a" 2).1 = ["b", "b"] ∧
    ¬ (get_recommendations E8 store8 "a" 2).1.Nodup :=
  ⟨by decide, by decide⟩

theorem fallbackLoop_not_focus (cm : List (String × List String))
    (a : String) (k : Nat) :
    ∀ (cats : List String) (acc : List String × String), a ∉ acc.1 →
    a ∉ (fallbackLoop cm a k cats acc).1 := by
  intro cats
  induction cats with
  | nil => intro acc h; exact h
  | cons cat rest ih =>
    intro acc h
    unfold fallbackLoop
    have hext : a ∉ acc.1 ++ ((dlookup cm (lowerStr cat)).getD []).filter
        (fun pid => decide (pid ≠ a)) := by
      intro hmem
      rcases List.mem_append.mp hmem with h1 | h1
      · exact h h1
      · have := (List.mem_filter.mp h1).2
        simp at this
    split
    · intro hmem
      exact hext (List.mem_of_mem_take hmem)
    · exact ih _ hext

/-- **C8, amended.**  `get_recommendations(id, k)` never returns the
focus id itself (the co-view counter of a reachable matrix never keys the
focus, and the fallback filters it out), but the list is NOT
deduplicated: an id co-viewed with the focus and sharing one of its
categories — or present in several of its categories — can appear more
than once.  The first conjunct states focus-exclusion; the second states
that `record_view` maintains the counter hypothesis it relies on. -/
theorem C8_amended_no_focus :
    (∀ (e : RecEngine) (store : List (String × StoredProduct)) (a : String)
      (k : Nat), (∀ q ∈ (dlookup e.view_matrix a).getD [], q.1 ≠ a) →
      a ∉ (get_recommendations e store a k).1) ∧
    (∀ (e : RecEngine) (a : String) (S : List String),
      (∀ q ∈ (dlookup e.view_matrix a).getD [], q.1 ≠ a) →
      ∀ q ∈ (dlookup (record_view e a S).view_matrix a).getD [], q.1 ≠ a) := by
  constructor
  · intro e store a k h
    cases hvc : dlookup e.view_matrix a with
    | none =>
      simp only [get_recommendations, hvc]
      split
      · split
        · simp
        · apply fallbackLoop_not_focus
          simp
      · simp
    | some counter =>
      have hmap : ∀ r ∈ (most_common counter k).map Prod.fst, r ≠ a := by
        intro r hr
        rcases List.mem_map.mp hr with ⟨q, hq, hqa⟩
        have hq1 : q ∈ counter :=
          (List.perm_insertionSort _ _).subset (List.mem_of_mem_take hq)
        have := h q (by rw [hvc]; exact hq1)
        rw [← hqa]
        exact this
      by_cases hempty : (most_common counter k).isEmpty = true
      · simp only [get_recommendations, hvc, hempty, if_true]
        split
        · split
          · simp
          · apply fallbackLoop_not_focus
            simp
        · simp
      · rw [Bool.not_eq_true] at hempty
        simp only [get_recommendations, hvc, hempty, Bool.false_eq_true,
          if_false]
        split
        · split
          · intro hmem
            exact hmap a hmem rfl
          · apply fallbackLoop_not_focus
            intro hmem
            exact hmap a hmem rfl
        · intro hmem
          exact hmap a hmem rfl
  · intro e a S h
    have : ∀ vm, (∀ q ∈ (dlookup vm a).getD [], q.1 ≠ a) →
        ∀ q ∈ (dlookup (S.foldl (recordStep a) vm) a).getD [], q.1 ≠ a := by
      induction S with
      | nil => intro vm hvm; exact hvm
      | cons b rest ih =>
        intro vm hvm
        simp only [List.foldl_cons]
        apply ih
        by_cases hb : b = a
        · rw [show recordStep a vm b = vm by simp [recordStep, hb]]
          exact hvm
        · rw [show recordStep a vm b =
              dset vm a (dset ((dlookup vm a).getD [])
                b (((dlookup ((dlookup vm a).getD []) b).getD 0) + 1))
            by simp [recordStep, hb]]
          rw [dlookup_dset_self]
          intro q hq
          rcases mem_dset _ _ _ _ hq with h1 | h1
          · rw [h1]
            exact hb
          · exact hvm q h1
    exact this e.view_matrix h

/-- Witness for the amended C8 at a concrete engine. -/
theorem C8_amended_no_focus_witness :
    "a" ∉ (get_recommendations E8 store8 "a" 2).1 :=
  C8_amended_no_focus.1 E8 store8 "a" 2 (by decide)

/-! ## ExistenceFilter and the recommendations endpoint (claim C9) -/

/-- Modelled from the spec: `pybloom_live.BloomFilter` is an external
dependency, not code of this repository.  Per the spec's ExistenceFilter
contract, `add` registers an id, `contains` reports every previously
added id (no false negatives) and may report never-added ids with bounded
probability.  The model keeps the exact set of added ids plus an
arbitrary false-positive predicate fixed at construction; every reachable
behaviour of a Bloom filter is an instance of this model. -/
structure BloomModel where
  added : Finset String
  falsePositive : String → Bool

/-- `bloom_filter.add(id)`. -/
def bloomAdd (b : BloomModel) (id : String) : BloomModel :=
  { b with added := insert id b.added }

/-- `id in bloom_filter`. -/
def bloomContains (b : BloomModel) (id : String) : Bool :=
  decide (id ∈ b.added) || b.falsePositive id

/-- The service's module-level state touched by indexing and
recommendations. -/
structure AppState where
  products_store : List (String × StoredProduct)
  inverted_index : InvertedIndex
  autocomplete_trie : Trie
  bloom : BloomModel
  engine : RecEngine

/-- `POST /api/search/index/product` (`index_product`): store the record,
add the id to the existence filter, index title+description with the
categories, feed the autocomplete trie (title tokens longer than 2
characters, plus the category labels), and register the recommendation
metadata. -/
def index_product (st : AppState) (p : StoredProduct) : AppState :=
  { products_store := dset st.products_store p.product_id p,
    inverted_index := add_document st.inverted_index p.product_id
      (p.title ++ " " ++ p.description) p.categories,
    autocomplete_trie := p.categories.foldl (fun t c => trieInsert t c 1)
      (((tokenize p.title).filter (fun tok => decide (2 < tok.length))).foldl
        (fun t tok => trieInsert t tok 1) st.autocomplete_trie),
    bloom := bloomAdd st.bloom p.product_id,
    engine := add_product_metadata st.engine p.product_id p.categories
      p.price_cents }

/-- `GET /api/search/recommendations/{product_id}`: `none` models the 404
raised when the ExistenceFilter rejects the id; otherwise the engine's
recommendations are returned. -/
def recommendationsEndpoint (st : AppState) (product_id : String)
    (limit : Nat) : Option (List String × String) :=
  if bloomContains st.bloom product_id then
    some (get_recommendations st.engine st.products_store product_id limit)
  else none

/-- **C9.** A recommendations request 404s exactly when the
ExistenceFilter does not contain the requested id; indexing a product
adds its id to the filter, and the filter only ever grows under
indexing, so a previously indexed id is never rejected (no false
negatives). -/
theorem C9_recommendations_404 (st : AppState) (pid : String) (limit : Nat) :
    (recommendationsEndpoint st pid limit = none ↔
      bloomContains st.bloom pid = false) ∧
    (∀ p : StoredProduct,
      bloomContains (index_product st p).bloom p.product_id = true) ∧
    (∀ p : StoredProduct, bloomContains st.bloom pid = true →
      bloomContains (index_product st p).bloom pid = true) ∧
    (∀ p : StoredProduct,
      recommendationsEndpoint (index_product st p) p.product_id limit ≠
        none) := by
  refine ⟨?_, ?_, ?_, ?_⟩
  · unfold recommendationsEndpoint
    cases hb : bloomContains st.bloom pid
    · simp
    · simp
  · intro p
    simp [index_product, bloomAdd, bloomContains]
  · intro p hc
    simp only [bloomContains, Bool.or_eq_true, decide_eq_true_eq] at hc ⊢
    rcases hc with hc | hc
    · exact Or.inl (Finset.mem_insert_of_mem hc)
    · exact Or.inr hc
  · intro p
    simp [recommendationsEndpoint, index_product, bloomAdd, bloomContains]

/-- The freshly started service. -/
def App0 : AppState :=
  { products_store := [], inverted_index := InvertedIndex.empty,
    autocomplete_trie := Trie.empty,
    bloom := { added := ∅, falsePositive := fun _ => false },
    engine := RecEngine.empty }

def prodC9 : StoredProduct :=
  { product_id := "A9", title := "Gadget", description := "a gadget",
    categories := ["Tech"], price_cents := 900, currency := "USD",
    stock := 1 }

/-- Witness for C9: after indexing a concrete product, its id passes the
filter and the endpoint does not 404 on it. -/
theorem C9_recommendations_404_witness :
    bloomContains (index_product App0 prodC9).bloom "A9" = true ∧
    recommendationsEndpoint (index_product App0 prodC9) "A9" 5 ≠ none := by
  have h2 : bloomContains (index_product App0 prodC9).bloom "A9" = true :=
    (C9_recommendations_404 App0 "A9" 5).2.1 prodC9
  refine ⟨h2, fun hnone => ?_⟩
  have h3 := ((C9_recommendations_404 (index_product App0 prodC9) "A9" 5).1).mp
    hnone
  rw [h2] at h3
  exact Bool.noConfusion h3
